import Mathlib

/-!
Verification of the unit-normalization core of `AAC.py`.

The Python core is shallowly embedded over `List Char` (Python strings are
sequences of code points, and all slicing in the source is by code point).
`String`-level wrappers keep the source's function names.

Modelling conventions:
* Python whitespace (`str.strip`, regex `\s`) is modelled by the six ASCII
  whitespace characters; `str.lower` and regex `\d` are modelled on ASCII.
* The multiplier dictionary's numeric values are never read by the core
  (only `multipliers_dict.keys()` is used), so the dictionary is embedded
  as its key list in insertion order.
* `sorted(xs, key=len, reverse=True)` (a stable descending sort by length)
  is embedded as a stable insertion sort `sortLenDesc`.
* The fixed-shape regex of `process_unit_token` is embedded as an explicit
  backtracking matcher `pyMatch` that enumerates, in the regex engine's
  priority order, the candidate splits of every component
  (greedy `\s*` longest-first, lazy `.*?` shortest-first, optional groups
  present-first), and `$` accepts the end of input or a final newline.
-/

namespace AAC

/-- ASCII whitespace, as recognised by Python's `str.strip` and regex `\s`. -/
def isWs (c : Char) : Bool :=
  c = ' ' || c = '\t' || c = '\n' || c = '\r' || c = '\x0b' || c = '\x0c'

/-- ASCII decimal digit, modelling regex `\d`. -/
def isDigitC (c : Char) : Bool := '0' ≤ c && c ≤ '9'

/-- Sign characters of the numeric literal class `[+\-±]`. -/
def isSignC (c : Char) : Bool := c = '+' || c = '-' || c = '±'

/-- ASCII lowering, modelling `str.lower` on the characters the core cares about. -/
def lowerC (c : Char) : Char :=
  if 'A' ≤ c && c ≤ 'Z' then Char.ofNat (c.toNat + 32) else c

/-- Drop leading whitespace (`str.lstrip`). -/
def stripLead (l : List Char) : List Char := l.dropWhile (fun c => isWs c)

/-- Drop trailing whitespace (`str.rstrip`). -/
def stripTrail (l : List Char) : List Char :=
  (l.reverse.dropWhile (fun c => isWs c)).reverse

/-- Python `str.strip`. -/
def pyStrip (l : List Char) : List Char := stripTrail (stripLead l)

/-- The trailing-whitespace run of a string (what `re.search(r'\s*$', s)` returns). -/
def trailWs (l : List Char) : List Char := l.drop (stripTrail l).length

/-- Insert into a length-descending list, before the first entry of smaller or
equal length, preserving the relative order of equal lengths that follow. -/
def insertLenDesc (x : List Char) : List (List Char) → List (List Char)
  | [] => [x]
  | y :: t => if x.length < y.length then y :: insertLenDesc x t else x :: y :: t

/-- Stable descending sort by length: `sorted(xs, key=len, reverse=True)`. -/
def sortLenDesc : List (List Char) → List (List Char)
  | [] => []
  | x :: t => insertLenDesc x (sortLenDesc t)

/-- Python `str.find`: index of the first occurrence of `sub`, if any. -/
def pyFindAux (sub : List Char) : List Char → Nat → Option Nat
  | [], i => if sub = [] then some i else none
  | c :: t, i => if sub.isPrefixOf (c :: t) then some i else pyFindAux sub t (i + 1)

/-- Python `s.find(sub)` (restricted to found/not-found as an `Option`). -/
def pyFind (s sub : List Char) : Option Nat := pyFindAux sub s 0

/-- The in-band error sentinel of `process_unit_token_no_paren`. -/
def errTxt (stripped : List Char) : List Char :=
  "Error: Undefined unit \x27".toList ++ stripped ++ "\x27 (no recognized prefix)".toList

/-- The prefix loop of the `$`-marker branch of `process_unit_token_no_paren`
(lines 183-193 of `AAC.py`), iterating over the length-sorted multiplier keys. -/
def dollarLoop (after stripped : List Char) (B : List (List Char)) :
    List (List Char) → List Char
  | [] => errTxt stripped
  | p :: rest =>
    if p.isPrefixOf stripped ∧ (stripped.drop p.length) ∈ B then
      match pyFind after p with
      | some idx =>
        if idx = 1 ∧ after.head? = some ' ' then
          '$' :: after.drop (idx + p.length)
        else
          '$' :: (after.take idx ++ after.drop (idx + p.length))
      | none => dollarLoop after stripped B rest
    else dollarLoop after stripped B rest

/-- The prefix loop of the plain branch of `process_unit_token_no_paren`
(lines 199-212 of `AAC.py`). -/
def plainLoop (token stripped : List Char) (B : List (List Char)) :
    List (List Char) → List Char
  | [] => errTxt stripped
  | p :: rest =>
    if p.isPrefixOf stripped ∧ (stripped.drop p.length) ∈ B then
      match pyFind token p with
      | some idx =>
        if 0 < idx ∧ token.get? (idx - 1) = some ' ' then
          if idx = 1 then '$' :: token.drop (idx + p.length)
          else '$' :: (token.take idx ++ token.drop (idx + p.length))
        else '$' :: (token.take idx ++ token.drop (idx + p.length))
      | none => plainLoop token stripped B rest
    else plainLoop token stripped B rest

/-- `process_unit_token_no_paren` over code-point lists.  `token.startswith('$')`
is `token.head? = some '$'` and `token[1:]` is `token.drop 1`. -/
def puTokNP (token : List Char) (B M : List (List Char)) : List Char :=
  if token.head? = some '$' then
    let after := token.drop 1
    let stripped := pyStrip after
    if stripped = [] then ['$']
    else if stripped ∈ B then '$' :: after
    else dollarLoop after stripped B (sortLenDesc M)
  else
    let stripped := pyStrip token
    if stripped ∈ B then '$' :: stripped
    else plainLoop token stripped B (sortLenDesc M)

/-- The `stripped` text that `process_unit_token_no_paren` validates against
the dictionary: the whitespace-trimmed token, the leading `$` marker (when
present) excluded. -/
def strippedCore (token : List Char) : List Char :=
  if token.head? = some '$' then pyStrip (token.drop 1) else pyStrip token

/-- Delimiter lookup of `split_outside_parens`: the first (length-sorted) delimiter
that starts the remaining text; an empty match is falsy in Python and acts as
no match. -/
def delimMatch (delims : List (List Char)) (cs : List Char) : Option (List Char) :=
  match delims.find? (fun d => d.isPrefixOf cs) with
  | some d => if d.isEmpty then none else some d
  | none => none

theorem delimMatch_some_ne_nil {delims : List (List Char)} {cs d : List Char}
    (h : delimMatch delims cs = some d) : d ≠ [] := by
  unfold delimMatch at h
  cases hf : delims.find? (fun d => d.isPrefixOf cs) with
  | none => rw [hf] at h; exact absurd h (by simp)
  | some e =>
    rw [hf] at h
    dsimp only at h
    by_cases he : e.isEmpty = true
    · rw [if_pos he] at h; exact absurd h (by simp)
    · rw [if_neg he] at h
      injection h with h2
      subst h2
      intro hnil
      subst hnil
      simp at he

/-- The scan loop of `split_outside_parens`: `current` is the content
accumulator, `depth` the parenthesis nesting depth.  Python's while-loop
advances by at least one character per iteration; the loop is embedded with an
explicit iteration budget (the wrapper supplies one unit per character, so the
budget is never exhausted). -/
def splitAux (delims : List (List Char)) : Nat → List Char → List Char → Nat → List (List Char)
  | _, [], current, _ => if current = [] then [] else [current]
  | 0, _ :: _, _, _ => []
  | fuel + 1, ch :: rest, current, depth =>
    if ch = '(' then splitAux delims fuel rest (current ++ [ch]) (depth + 1)
    else if ch = ')' then splitAux delims fuel rest (current ++ [ch]) (depth - 1)
    else if depth = 0 then
      match delimMatch delims (ch :: rest) with
      | some d =>
        (if current = [] then [] else [current]) ++
          d :: splitAux delims fuel ((ch :: rest).drop d.length) [] 0
      | none => splitAux delims fuel rest (current ++ [ch]) depth
    else splitAux delims fuel rest (current ++ [ch]) depth

/-- `split_outside_parens` from `AAC.py` (lines 137-173). -/
def split_outside_parens (text : String) (delims : List String) : List String :=
  (splitAux (sortLenDesc (delims.map String.toList)) text.toList.length text.toList [] 0).map
    (fun l => String.mk l)

/-- Nesting-depth update of one character, as `split_outside_parens` tracks it:
`(` increments, `)` decrements floored at zero, all else leaves it. -/
def charDepth (c : Char) (d : Nat) : Nat :=
  if c = '(' then d + 1 else if c = ')' then d - 1 else d

/-- The parenthesis nesting depth after scanning a prefix of the input. -/
def depthAfter : List Char → Nat → Nat
  | [], d => d
  | c :: t, d => depthAfter t (charDepth c d)

/-- The scan loop of `split_outside_parens`, instrumented with provenance and
position: each emitted token carries a tag (`true` for a connector emitted by a
delimiter match, `false` for a flushed content accumulator) and the input
position at which it starts; `pos` is the position of the head of the
remaining input.  Erasing tags and positions recovers `splitAux` exactly. -/
def splitAuxP (delims : List (List Char)) :
    Nat → List Char → List Char → Nat → Nat → List (Bool × Nat × List Char)
  | _, [], current, _, pos =>
    if current = [] then [] else [(false, pos - current.length, current)]
  | 0, _ :: _, _, _, _ => []
  | fuel + 1, ch :: rest, current, depth, pos =>
    if ch = '(' then splitAuxP delims fuel rest (current ++ [ch]) (depth + 1) (pos + 1)
    else if ch = ')' then splitAuxP delims fuel rest (current ++ [ch]) (depth - 1) (pos + 1)
    else if depth = 0 then
      match delimMatch delims (ch :: rest) with
      | some d =>
        (if current = [] then [] else [(false, pos - current.length, current)]) ++
          (true, pos, d) ::
            splitAuxP delims fuel ((ch :: rest).drop d.length) [] 0 (pos + d.length)
      | none => splitAuxP delims fuel rest (current ++ [ch]) depth (pos + 1)
    else splitAuxP delims fuel rest (current ++ [ch]) depth (pos + 1)

/-- The scan loop of `split_outside_parens`, instrumented to tag each emitted
token with its provenance: `true` for a connector emitted by a delimiter match,
`false` for a flushed content accumulator.  Erasing the tags recovers
`splitAux` exactly. -/
def splitAuxT (delims : List (List Char)) :
    Nat → List Char → List Char → Nat → List (Bool × List Char)
  | _, [], current, _ => if current = [] then [] else [(false, current)]
  | 0, _ :: _, _, _ => []
  | fuel + 1, ch :: rest, current, depth =>
    if ch = '(' then splitAuxT delims fuel rest (current ++ [ch]) (depth + 1)
    else if ch = ')' then splitAuxT delims fuel rest (current ++ [ch]) (depth - 1)
    else if depth = 0 then
      match delimMatch delims (ch :: rest) with
      | some d =>
        (if current = [] then [] else [(false, current)]) ++
          (true, d) :: splitAuxT delims fuel ((ch :: rest).drop d.length) [] 0
      | none => splitAuxT delims fuel rest (current ++ [ch]) depth
    else splitAuxT delims fuel rest (current ++ [ch]) depth

/-! ### The fixed-shape pattern of `process_unit_token`

`pattern = ^(\s*)([+\-±]?\d*(?:\.\d+)?)(\s*)(.*?)(\s*)(\([^)]*\))?(\s*)$`

Each component is embedded as the list of its candidate (consumed, rest)
splits in the priority order the regex engine tries them; `pyMatch` takes the
first complete parse. -/

/-- First success of `f` over a list, in order. -/
def firstSome : List α → (α → Option β) → Option β
  | [], _ => none
  | a :: t, f => match f a with | some b => some b | none => firstSome t f

/-- The splits `(cs.take k, cs.drop k)` for `k = n, n-1, …, 0` (greedy order). -/
def splitsDesc (cs : List Char) (n : Nat) : List (List Char × List Char) :=
  ((List.range (n + 1)).reverse).map fun k => (cs.take k, cs.drop k)

/-- The splits `(cs.take k, cs.drop k)` for `k = 0, 1, …, n` (lazy order). -/
def splitsAsc (cs : List Char) (n : Nat) : List (List Char × List Char) :=
  (List.range (n + 1)).map fun k => (cs.take k, cs.drop k)

/-- Candidates of a greedy `\s*`, longest first. -/
def wsCands (cs : List Char) : List (List Char × List Char) :=
  splitsDesc cs (cs.takeWhile isWs).length

/-- Candidates of the lazy `.*?`, shortest first (`.` does not match newline). -/
def unitCands (cs : List Char) : List (List Char × List Char) :=
  splitsAsc cs (cs.takeWhile (fun c => c ≠ '\n')).length

/-- Candidates of `[+\-±]?`: with the sign first (greedy `?`), then without. -/
def signCands (cs : List Char) : List (List Char × List Char) :=
  match cs with
  | c :: t => if isSignC c then [([c], t), ([], c :: t)] else [([], c :: t)]
  | [] => [([], [])]

/-- Candidates of a greedy `\d*`, longest first. -/
def digitCands (cs : List Char) : List (List Char × List Char) :=
  splitsDesc cs (cs.takeWhile isDigitC).length

/-- Candidates of `(?:\.\d+)?`: present (inner `\d+` greedy) first, then absent. -/
def fracCands (cs : List Char) : List (List Char × List Char) :=
  match cs with
  | c :: t =>
    if c = '.' then
      (((List.range (t.takeWhile isDigitC).length).reverse).map
        fun j => ('.' :: t.take (j + 1), t.drop (j + 1))) ++ [([], c :: t)]
    else [([], c :: t)]
  | [] => [([], [])]

/-- Candidates of the whole numeric component `[+\-±]?\d*(?:\.\d+)?`. -/
def numCands (cs : List Char) : List (List Char × List Char) :=
  (signCands cs).flatMap fun sr =>
    (digitCands sr.2).flatMap fun dr =>
      (fracCands dr.2).map fun fr => (sr.1 ++ dr.1 ++ fr.1, fr.2)

/-- Candidates of `(\([^)]*\))?`: the (unique) parenthesised match first, then absent. -/
def parCands (cs : List Char) : List (List Char × List Char) :=
  match cs with
  | c :: t =>
    if c = '(' then
      if (t.takeWhile (fun x => x ≠ ')')).length < t.length then
        ('(' :: (t.take (t.takeWhile (fun x => x ≠ ')')).length ++ [')']),
          t.drop ((t.takeWhile (fun x => x ≠ ')')).length + 1)) :: [([], c :: t)]
      else [([], c :: t)]
    else [([], c :: t)]
  | [] => [([], [])]

/-- Python's `$` anchor: end of string, or just before a terminal newline. -/
def endAnch (cs : List Char) : Bool := cs = [] || cs = ['\n']

/-- The named groups of the fixed-shape pattern. -/
structure MatchG where
  lead : List Char
  num : List Char
  sp1 : List Char
  unitp : List Char
  sp2 : List Char
  par : List Char
  trailp : List Char
deriving Repr, DecidableEq

/-- `pattern.match(token)`: the engine's first complete parse, components tried
in priority order. -/
def pyMatch (cs : List Char) : Option MatchG :=
  firstSome (wsCands cs) fun lp =>
  firstSome (numCands lp.2) fun np =>
  firstSome (wsCands np.2) fun s1 =>
  firstSome (unitCands s1.2) fun up =>
  firstSome (wsCands up.2) fun s2 =>
  firstSome (parCands s2.2) fun pp =>
  firstSome (wsCands pp.2) fun tp =>
  if endAnch tp.2 then some ⟨lp.1, np.1, s1.1, up.1, s2.1, pp.1, tp.1⟩ else none

/-- `"ohm" in core.lower()`. -/
def hasOhm (core : List Char) : Bool :=
  decide ("ohm".toList <:+: core.map lowerC)

/-- `process_unit_token` over code-point lists (lines 215-243 of `AAC.py`). -/
def puTok (token : List Char) (B M : List (List Char)) : List Char :=
  match pyMatch token with
  | none => token
  | some g =>
    let core := pyStrip g.unitp
    let lws := g.unitp.takeWhile isWs
    let rws := trailWs g.unitp
    let processed := puTokNP core B M
    let nu := lws ++ processed ++ rws
    let ohm := hasOhm core
    let nu2 :=
      if ohm ∧ ['$'].isPrefixOf nu ∧ ¬ (['$', ' '].isPrefixOf nu) then
        '$' :: ' ' :: stripLead (nu.drop 1)
      else nu
    let s1b := if ohm ∧ g.num ≠ [] ∧ g.sp1 = [] then [' '] else g.sp1
    g.lead ++ g.num ++ s1b ++ nu2 ++ g.sp2 ++ g.par ++ g.trailp

/-- The fixed connector set of `resolve_compound_unit`. -/
def connectors : List (List Char) := [['t', 'o'], [','], ['@']]

/-- The per-token dispatch loop of `resolve_compound_unit`: connectors pass
through verbatim, empty tokens are skipped, content tokens are normalised;
the results are concatenated in order. -/
def resolveParts (B M : List (List Char)) : List (List Char) → List Char
  | [] => []
  | t :: rest =>
    (if t ∈ connectors then t
     else if t = [] then []
     else puTok t B M) ++ resolveParts B M rest

/-- `resolve_compound_unit` over code-point lists (lines 245-255 of `AAC.py`). -/
def resolveC (cs : List Char) (B M : List (List Char)) : List Char :=
  resolveParts B M (splitAux (sortLenDesc connectors) cs.length cs [] 0)

/-- `process_unit_token_no_paren` from `AAC.py` (lines 175-213). -/
def process_unit_token_no_paren (token : String) (B M : List String) : String :=
  String.mk (puTokNP token.toList (B.map String.toList) (M.map String.toList))

/-- `process_unit_token` from `AAC.py` (lines 215-243). -/
def process_unit_token (token : String) (B M : List String) : String :=
  String.mk (puTok token.toList (B.map String.toList) (M.map String.toList))

/-- `resolve_compound_unit` from `AAC.py` (lines 245-255). -/
def resolve_compound_unit (s : String) (B M : List String) : String :=
  String.mk (resolveC s.toList (B.map String.toList) (M.map String.toList))

/-- The compound-resolution contract as the spec states it: tokenize with the
fixed three-delimiter set, pass connector tokens through verbatim, skip empty
content tokens, send the remaining content tokens through segment
normalization, and concatenate in order with no separator. -/
def resolveSpecPipeline (s : String) (B M : List String) : String :=
  String.join ((split_outside_parens s ["to", ",", "@"]).filterMap fun t =>
    if t = "to" ∨ t = "," ∨ t = "@" then some t
    else if t = "" then none
    else some (process_unit_token t B M))

end AAC

namespace AAC

/-! ### Generic string lemmas -/

theorem strMk_append (a b : List Char) :
    String.mk (a ++ b) = String.mk a ++ String.mk b := rfl

theorem strJoin_map_mk (l : List (List Char)) :
    String.join (l.map String.mk) = String.mk l.flatten := by
  have key : ∀ (l : List (List Char)) (acc : List Char),
      List.foldl (· ++ ·) (String.mk acc) (l.map String.mk) =
        String.mk (acc ++ l.flatten) := by
    intro l
    induction l with
    | nil => intro acc; simp [List.flatten]
    | cons x t ih =>
      intro acc
      simp only [List.map_cons, List.foldl_cons, List.flatten_cons]
      rw [← strMk_append, ih, List.append_assoc]
  have h0 : String.join (l.map String.mk) =
      List.foldl (· ++ ·) (String.mk []) (l.map String.mk) := rfl
  rw [h0, key]
  simp

theorem strMk_toList (s : String) : String.mk s.toList = s := rfl

/-! ### Tokenizer lemmas -/

theorem delimMatch_some_pre {delims : List (List Char)} {cs d : List Char}
    (h : delimMatch delims cs = some d) : d <+: cs := by
  unfold delimMatch at h
  cases hf : delims.find? (fun d => d.isPrefixOf cs) with
  | none => rw [hf] at h; exact absurd h (by simp)
  | some e =>
    rw [hf] at h
    dsimp only at h
    by_cases he : e.isEmpty = true
    · rw [if_pos he] at h; exact absurd h (by simp)
    · rw [if_neg he] at h
      injection h with h2
      subst h2
      have := List.find?_some hf
      exact List.isPrefixOf_iff_prefix.mp this

theorem delimMatch_some_mem {delims : List (List Char)} {cs d : List Char}
    (h : delimMatch delims cs = some d) : d ∈ delims := by
  unfold delimMatch at h
  cases hf : delims.find? (fun d => d.isPrefixOf cs) with
  | none => rw [hf] at h; exact absurd h (by simp)
  | some e =>
    rw [hf] at h
    dsimp only at h
    by_cases he : e.isEmpty = true
    · rw [if_pos he] at h; exact absurd h (by simp)
    · rw [if_neg he] at h
      injection h with h2
      subst h2
      exact List.mem_of_find?_eq_some hf

/-- Concatenating the emitted tokens restores the accumulator and the
remaining input, provided the iteration budget covers the remaining input. -/
theorem splitAux_join (delims : List (List Char)) :
    ∀ (fuel : Nat) (cs current : List Char) (depth : Nat),
      cs.length ≤ fuel →
      (splitAux delims fuel cs current depth).flatten = current ++ cs := by
  intro fuel
  induction fuel with
  | zero =>
    intro cs current depth h
    cases cs with
    | nil =>
      by_cases hc : current = []
      · simp [splitAux, hc]
      · simp [splitAux, hc]
    | cons ch rest => simp at h
  | succ fuel ih =>
    intro cs current depth h
    cases cs with
    | nil =>
      by_cases hc : current = []
      · simp [splitAux, hc]
      · simp [splitAux, hc]
    | cons ch rest =>
      have hrest : rest.length ≤ fuel := by
        simp only [List.length_cons] at h; omega
      by_cases h1 : ch = '('
      · simp only [splitAux, if_pos h1]
        rw [ih _ _ _ hrest]
        simp [h1]
      · by_cases h2 : ch = ')'
        · simp only [splitAux, if_neg h1, if_pos h2]
          rw [ih _ _ _ hrest]
          simp [h2]
        · by_cases h3 : depth = 0
          · simp only [splitAux, if_neg h1, if_neg h2, if_pos h3]
            cases hm : delimMatch delims (ch :: rest) with
            | some d =>
              have hpre : d <+: ch :: rest := delimMatch_some_pre hm
              have hne : d ≠ [] := delimMatch_some_ne_nil hm
              have hd1 : 1 ≤ d.length := by
                cases d with
                | nil => exact absurd rfl hne
                | cons a t => simp
              have hdrop : ((ch :: rest).drop d.length).length ≤ fuel := by
                simp only [List.length_drop, List.length_cons]
                omega
              have hrec := ih _ [] 0 hdrop
              simp only [List.flatten_append, List.flatten_cons, hrec, List.nil_append]
              have htd : d ++ (ch :: rest).drop d.length = ch :: rest := by
                have : d = (ch :: rest).take d.length :=
                  List.prefix_iff_eq_take.mp hpre
                conv_rhs => rw [← List.take_append_drop d.length (ch :: rest)]
                rw [← this]
              by_cases hc : current = []
              · simp [hc, htd]
              · simp [hc, htd]
            | none =>
              rw [ih _ _ _ hrest]
              simp
          · simp only [splitAux, if_neg h1, if_neg h2, if_neg h3]
            rw [ih _ _ _ hrest]
            simp

/-- C9: the tokenizer only partitions the input: concatenating all tokens of
`split_outside_parens`, in order, reproduces the input string exactly, for
every input and every delimiter list. -/
theorem split_outside_parens_concat (text : String) (delims : List String) :
    String.join (split_outside_parens text delims) = text := by
  unfold split_outside_parens
  rw [strJoin_map_mk, splitAux_join _ _ _ _ _ (Nat.le_refl _)]
  simp [strMk_toList]

/-! ### Compound resolution as tokenize-map-concatenate -/

/-- The per-token step of the resolver, at the code-point level. -/
def stepL (B M : List (List Char)) (t : List Char) : Option (List Char) :=
  if t ∈ connectors then some t
  else if t = [] then none
  else some (puTok t B M)

theorem resolveParts_eq_filterMap (B M : List (List Char)) (l : List (List Char)) :
    resolveParts B M l = (l.filterMap (stepL B M)).flatten := by
  induction l with
  | nil => rfl
  | cons t rest ih =>
    by_cases h1 : t ∈ connectors
    · simp [resolveParts, stepL, List.filterMap_cons, h1, ih]
    · by_cases h2 : t = []
      · subst h2
        simp [resolveParts, stepL, List.filterMap_cons, ih, connectors]
      · simp [resolveParts, stepL, List.filterMap_cons, h1, h2, ih]

theorem strMk_eq_iff (t : List Char) (s : String) : String.mk t = s ↔ t = s.toList := by
  constructor
  · intro h; rw [← h]; rfl
  · intro h; rw [h]; rfl

theorem step_mk (B M : List String) (t : List Char) :
    (if String.mk t = "to" ∨ String.mk t = "," ∨ String.mk t = "@" then some (String.mk t)
     else if String.mk t = "" then none
     else some (process_unit_token (String.mk t) B M)) =
    Option.map String.mk (stepL (B.map String.toList) (M.map String.toList) t) := by
  have hconn : (t ∈ connectors) ↔
      (String.mk t = "to" ∨ String.mk t = "," ∨ String.mk t = "@") := by
    have e1 : ("to" : String).toList = ['t', 'o'] := rfl
    have e2 : ("," : String).toList = [','] := rfl
    have e3 : ("@" : String).toList = ['@'] := rfl
    simp only [strMk_eq_iff, e1, e2, e3, connectors, List.mem_cons,
      List.not_mem_nil, or_false]
  have hnil : (String.mk t = "") ↔ (t = []) := by
    rw [strMk_eq_iff]; rfl
  unfold stepL
  by_cases h1 : t ∈ connectors
  · rw [if_pos h1, if_pos (hconn.mp h1)]; rfl
  · rw [if_neg h1, if_neg (fun hc => h1 (hconn.mpr hc))]
    by_cases h2 : t = []
    · rw [if_pos h2, if_pos (hnil.mpr h2)]; rfl
    · rw [if_neg h2, if_neg (fun hc => h2 (hnil.mp hc))]; rfl

/-- C3: on every input and every dictionary, `resolve_compound_unit` is
exactly: tokenize with the fixed delimiter set, pass connectors through
verbatim, skip empty content tokens, normalise the other content tokens, and
concatenate in order with no separator; in particular `",,"` resolves to
`",,"` for every dictionary. -/
theorem resolve_compound_unit_pipeline :
    (∀ (s : String) (B M : List String),
      resolve_compound_unit s B M = resolveSpecPipeline s B M) ∧
    (∀ (B M : List String), resolve_compound_unit ",," B M = ",,") := by
  constructor
  · intro s B M
    unfold resolve_compound_unit resolveC resolveSpecPipeline split_outside_parens
    rw [resolveParts_eq_filterMap]
    have hconn : sortLenDesc (List.map String.toList ["to", ",", "@"]) =
        sortLenDesc connectors := rfl
    rw [List.filterMap_map]
    have hstep : ((fun t =>
        if t = "to" ∨ t = "," ∨ t = "@" then some t
        else if t = "" then none
        else some (process_unit_token t B M)) ∘ String.mk) =
        fun t => Option.map String.mk
          (stepL (B.map String.toList) (M.map String.toList) t) := by
      funext t
      exact step_mk B M t
    rw [hstep]
    have hmapfm : ∀ (l : List (List Char)),
        (l.filterMap fun t => Option.map String.mk
          (stepL (B.map String.toList) (M.map String.toList) t)) =
        ((l.filterMap (stepL (B.map String.toList) (M.map String.toList))).map
          String.mk) := by
      intro l
      rw [List.map_filterMap]
    rw [hmapfm, strJoin_map_mk, hconn]
  · intro B M
    rfl

/-- C2 counterexample: on the spec's end-to-end example the code does NOT
return `"5 $m to 10$ Ohm"` (the Ohm rule also forces a space between the
numeral and the marker). -/
theorem resolve_example_ne_spec :
    resolve_compound_unit "5 km to 10Ohm" ["m", "Ohm"] ["k"] ≠ "5 $m to 10$ Ohm" := by
  decide

/-- C2 (amended): with base units `{m, Ohm}` and multiplier `k`, the input
`"5 km to 10Ohm"` tokenizes to `["5 km ", "to", " 10Ohm"]` and resolves to
`"5 $m to 10 $ Ohm"`: the Ohm rule both inserts a space after the marker and
forces a space between the numeral `10` and the marker. -/
theorem resolve_example_eval :
    resolve_compound_unit "5 km to 10Ohm" ["m", "Ohm"] ["k"] = "5 $m to 10 $ Ohm" ∧
    split_outside_parens "5 km to 10Ohm" ["to", ",", "@"] = ["5 km ", "to", " 10Ohm"] := by
  constructor
  · decide
  · decide

/-- C8: whenever the fixed-shape pattern fails to match a content token,
`process_unit_token` returns the token completely unmodified (silent no-op,
never an error string). -/
theorem pattern_fail_noop (token : String) (B M : List String)
    (h : pyMatch token.toList = none) : process_unit_token token B M = token := by
  unfold process_unit_token puTok
  rw [h]
  exact rfl

/-- Witness for C8 at the concrete token `"a\nb"` (the mid-token newline makes
the pattern fail). -/
theorem pattern_fail_noop_witness :
    pyMatch "a\nb".toList = none ∧ process_unit_token "a\nb" [] [] = "a\nb" :=
  ⟨by decide, pattern_fail_noop "a\nb" [] [] (by decide)⟩

/-! ### Delimiters inside parentheses never split -/

/-- While the nesting depth is positive, the scanner accumulates paren-free
characters without ever emitting a token. -/
theorem splitAux_in_parens (delims : List (List Char)) :
    ∀ (x : List Char) (f : Nat) (cs current : List Char) (depth : Nat),
      0 < depth → '(' ∉ x → ')' ∉ x →
      splitAux delims (x.length + f) (x ++ cs) current depth =
        splitAux delims f cs (current ++ x) depth := by
  intro x
  induction x with
  | nil => intro f cs current depth _ _ _; simp
  | cons c xs ih =>
    intro f cs current depth hd hop hcl
    have hc1 : c ≠ '(' := fun h => hop (h ▸ List.mem_cons_self _ _)
    have hc2 : c ≠ ')' := fun h => hcl (h ▸ List.mem_cons_self _ _)
    have hxs1 : '(' ∉ xs := fun h => hop (List.mem_cons_of_mem _ h)
    have hxs2 : ')' ∉ xs := fun h => hcl (List.mem_cons_of_mem _ h)
    have hd0 : depth ≠ 0 := Nat.pos_iff_ne_zero.mp hd
    have hlen : (c :: xs).length + f = (xs.length + f) + 1 := by
      simp [Nat.add_comm, Nat.add_assoc, Nat.add_left_comm]
    rw [hlen]
    show splitAux delims (xs.length + f + 1) (c :: (xs ++ cs)) current depth = _
    rw [splitAux]
    rw [if_neg hc1, if_neg hc2, if_neg hd0]
    rw [ih f cs (current ++ [c]) depth hd hxs1 hxs2]
    simp

/-- Any parenthesised paren-free text tokenizes to itself as a single content
token, whatever the delimiters. -/
theorem paren_group_single_token (x : String) (delims : List String)
    (hop : '(' ∉ x.toList) (hcl : ')' ∉ x.toList) :
    split_outside_parens ("(" ++ x ++ ")") delims = ["(" ++ x ++ ")"] := by
  obtain ⟨l⟩ := x
  have htl : ("(" ++ String.mk l ++ ")").toList = '(' :: (l ++ [')']) := by
    show ("(".toList ++ l) ++ ")".toList = _
    simp
  unfold split_outside_parens
  rw [htl]
  have hlen : ('(' :: (l ++ [')'])).length = (l.length + 1) + 1 := by simp
  rw [hlen]
  rw [splitAux]
  rw [if_pos rfl]
  simp only [List.nil_append, Nat.zero_add]
  have hstep := splitAux_in_parens (sortLenDesc (delims.map String.toList))
    l 1 [')'] ['('] 1 (by omega) (by simpa using hop) (by simpa using hcl)
  rw [hstep]
  rw [splitAux]
  rw [if_neg (by decide), if_pos rfl]
  simp only [List.append_assoc]
  have hfin : splitAux (sortLenDesc (delims.map String.toList)) 0 []
      (['('] ++ (l ++ [')'])) (1 - 1) = [['('] ++ (l ++ [')'])] := by
    rw [splitAux, if_neg (by simp)]
  rw [hfin]
  simp only [List.map_cons, List.map_nil]
  congr 1

/-- `depthAfter` splits over concatenation. -/
theorem depthAfter_append (a : List Char) :
    ∀ (b : List Char) (d : Nat), depthAfter (a ++ b) d = depthAfter b (depthAfter a d) := by
  induction a with
  | nil => intro b d; rfl
  | cons c t ih => intro b d; exact ih b (charDepth c d)

/-- Paren-free text leaves the nesting depth unchanged. -/
theorem depthAfter_no_paren :
    ∀ (l : List Char), '(' ∉ l → ')' ∉ l → ∀ d, depthAfter l d = d := by
  intro l
  induction l with
  | nil => intro _ _ d; rfl
  | cons c t ih =>
    intro hop hcl d
    have hc1 : c ≠ '(' := fun h => hop (h ▸ List.mem_cons_self _ _)
    have hc2 : c ≠ ')' := fun h => hcl (h ▸ List.mem_cons_self _ _)
    have ht1 : '(' ∉ t := fun h => hop (List.mem_cons_of_mem _ h)
    have ht2 : ')' ∉ t := fun h => hcl (List.mem_cons_of_mem _ h)
    show depthAfter t (charDepth c d) = d
    rw [show charDepth c d = d by simp [charDepth, hc1, hc2]]
    exact ih ht1 ht2 d

/-- Erasing the tags and positions of the instrumented scanner recovers the
plain scanner exactly. -/
theorem splitAuxP_erase (delims : List (List Char)) :
    ∀ (fuel : Nat) (cs current : List Char) (depth pos : Nat),
      (splitAuxP delims fuel cs current depth pos).map (fun pr => pr.2.2) =
        splitAux delims fuel cs current depth := by
  intro fuel
  induction fuel with
  | zero =>
    intro cs current depth pos
    cases cs with
    | nil => by_cases hc : current = [] <;> simp [splitAuxP, splitAux, hc]
    | cons ch rest => simp [splitAuxP, splitAux]
  | succ fuel ih =>
    intro cs current depth pos
    cases cs with
    | nil => by_cases hc : current = [] <;> simp [splitAuxP, splitAux, hc]
    | cons ch rest =>
      by_cases h1 : ch = '('
      · simp only [splitAuxP, splitAux, if_pos h1]
        exact ih _ _ _ _
      · by_cases h2 : ch = ')'
        · simp only [splitAuxP, splitAux, if_neg h1, if_pos h2]
          exact ih _ _ _ _
        · by_cases h3 : depth = 0
          · simp only [splitAuxP, splitAux, if_neg h1, if_neg h2, if_pos h3]
            cases hm : delimMatch delims (ch :: rest) with
            | some d =>
              by_cases hc : current = [] <;>
                simp [hc, List.map_append, ih]
            | none => exact ih _ _ _ _
          · simp only [splitAuxP, splitAux, if_neg h1, if_neg h2, if_neg h3]
            exact ih _ _ _ _

/-- Invariant run of the instrumented scanner: provided no delimiter contains
a parenthesis, every connector emission happens at an input position whose
nesting depth is zero, and marks a genuine delimiter occurrence there.
`pre` is the already-consumed prefix of the input. -/
theorem splitAuxP_connector_depth (delims : List (List Char))
    (hnd : ∀ d ∈ delims, '(' ∉ d ∧ ')' ∉ d) :
    ∀ (fuel : Nat) (cs current pre : List Char) (depth pos : Nat),
      depth = depthAfter pre 0 → pos = pre.length →
      ∀ tg i d, (tg, i, d) ∈ splitAuxP delims fuel cs current depth pos →
        tg = true →
        depthAfter ((pre ++ cs).take i) 0 = 0 ∧ d <+: (pre ++ cs).drop i ∧
          d ∈ delims := by
  intro fuel
  induction fuel with
  | zero =>
    intro cs current pre depth pos hdep hpos tg i d hpr htg
    subst htg
    cases cs with
    | nil => by_cases hc : current = [] <;> simp [splitAuxP, hc] at hpr
    | cons ch rest => simp [splitAuxP] at hpr
  | succ fuel ih =>
    intro cs current pre depth pos hdep hpos tg i d hpr htg
    cases cs with
    | nil =>
      subst htg
      by_cases hc : current = [] <;> simp [splitAuxP, hc] at hpr
    | cons ch rest =>
      by_cases h1 : ch = '('
      · rw [splitAuxP, if_pos h1] at hpr
        subst h1
        have hdep2 : depth + 1 = depthAfter (pre ++ ['(']) 0 := by
          rw [depthAfter_append, hdep]
          simp [depthAfter, charDepth]
        have hpos2 : pos + 1 = (pre ++ ['(']).length := by simp [hpos]
        have hmain := ih rest (current ++ ['(']) (pre ++ ['(']) (depth + 1)
          (pos + 1) hdep2 hpos2 tg i d hpr htg
        rwa [List.append_assoc, List.singleton_append] at hmain
      · by_cases h2 : ch = ')'
        · rw [splitAuxP, if_neg h1, if_pos h2] at hpr
          subst h2
          have hdep2 : depth - 1 = depthAfter (pre ++ [')']) 0 := by
            rw [depthAfter_append, hdep]
            simp [depthAfter, charDepth]
          have hpos2 : pos + 1 = (pre ++ [')']).length := by simp [hpos]
          have hmain := ih rest (current ++ [')']) (pre ++ [')']) (depth - 1)
            (pos + 1) hdep2 hpos2 tg i d hpr htg
          rwa [List.append_assoc, List.singleton_append] at hmain
        · by_cases h3 : depth = 0
          · rw [splitAuxP, if_neg h1, if_neg h2, if_pos h3] at hpr
            cases hm : delimMatch delims (ch :: rest) with
            | some d0 =>
              rw [hm] at hpr
              rcases List.mem_append.mp hpr with hpr | hpr
              · subst htg
                by_cases hc : current = [] <;> simp [hc] at hpr
              · rcases List.mem_cons.mp hpr with hpr | hpr
                · simp only [Prod.mk.injEq] at hpr
                  obtain ⟨-, hi, hdd⟩ := hpr
                  subst hi
                  subst hdd
                  refine ⟨?_, ?_, delimMatch_some_mem hm⟩
                  · rw [hpos, List.take_left, ← hdep]
                    exact h3
                  · rw [hpos, List.drop_left]
                    exact delimMatch_some_pre hm
                · have hd0mem := delimMatch_some_mem hm
                  obtain ⟨tl, htl⟩ := delimMatch_some_pre hm
                  have hdrop : (ch :: rest).drop d0.length = tl := by
                    rw [← htl, List.drop_left]
                  have hdep2 : (0 : Nat) = depthAfter (pre ++ d0) 0 := by
                    rw [depthAfter_append, ← hdep, h3]
                    exact (depthAfter_no_paren d0 (hnd d0 hd0mem).1
                      (hnd d0 hd0mem).2 0).symm
                  have hpos2 : pos + d0.length = (pre ++ d0).length := by
                    simp [hpos]
                  rw [hdrop] at hpr
                  have hmain := ih tl [] (pre ++ d0) 0 (pos + d0.length)
                    hdep2 hpos2 tg i d hpr htg
                  rwa [List.append_assoc, htl] at hmain
            | none =>
              rw [hm] at hpr
              have hdep2 : depth = depthAfter (pre ++ [ch]) 0 := by
                rw [depthAfter_append, ← hdep]
                simp [depthAfter, charDepth, h1, h2]
              have hpos2 : pos + 1 = (pre ++ [ch]).length := by simp [hpos]
              have hmain := ih rest (current ++ [ch]) (pre ++ [ch]) depth
                (pos + 1) hdep2 hpos2 tg i d hpr htg
              rwa [List.append_assoc, List.singleton_append] at hmain
          · rw [splitAuxP, if_neg h1, if_neg h2, if_neg h3] at hpr
            have hdep2 : depth = depthAfter (pre ++ [ch]) 0 := by
              rw [depthAfter_append, ← hdep]
              simp [depthAfter, charDepth, h1, h2]
            have hpos2 : pos + 1 = (pre ++ [ch]).length := by simp [hpos]
            have hmain := ih rest (current ++ [ch]) (pre ++ [ch]) depth
              (pos + 1) hdep2 hpos2 tg i d hpr htg
            rwa [List.append_assoc, List.singleton_append] at hmain

/-! ### The error sentinel on unresolvable tokens -/

theorem mem_insertLenDesc (a x : List Char) (l : List (List Char)) :
    a ∈ insertLenDesc x l ↔ a = x ∨ a ∈ l := by
  induction l with
  | nil => simp [insertLenDesc]
  | cons y t ih =>
    rw [insertLenDesc]
    by_cases h : x.length < y.length
    · rw [if_pos h]
      simp only [List.mem_cons, ih]
      tauto
    · rw [if_neg h]
      simp only [List.mem_cons]

theorem mem_sortLenDesc (a : List Char) (l : List (List Char)) :
    a ∈ sortLenDesc l ↔ a ∈ l := by
  induction l with
  | nil => simp [sortLenDesc]
  | cons x t ih =>
    rw [sortLenDesc, mem_insertLenDesc]
    simp only [List.mem_cons, ih]

/-- C4: on every input string, `split_outside_parens` emits a delimiter
occurrence as its own token only at parenthesis nesting depth 0.  Stated over
the position-instrumented scanner (whose tag/position erasure is
`split_outside_parens` itself, second conjunct): provided no delimiter
contains a parenthesis character, every connector emission `(true, i, d)`
occurs at a position `i` where the nesting depth of the preceding input is 0
and marks a genuine occurrence of the delimiter `d` there.  Consequently a
delimiter occurrence inside parentheses never causes a split: any
parenthesised paren-free text stays one single token (third conjunct), and in
particular `"A(to)B"` with delimiter `"to"` yields the single token
`"A(to)B"`, not three tokens (fourth conjunct). -/
theorem delim_in_parens_no_split :
    (∀ (text : String) (delims : List String),
      (∀ d ∈ delims, '(' ∉ d.toList ∧ ')' ∉ d.toList) →
      ∀ tg i d, (tg, i, d) ∈ splitAuxP (sortLenDesc (delims.map String.toList))
          text.toList.length text.toList [] 0 0 →
        tg = true →
        depthAfter (text.toList.take i) 0 = 0 ∧ d <+: text.toList.drop i ∧
          d ∈ delims.map String.toList) ∧
    (∀ (text : String) (delims : List String),
      split_outside_parens text delims =
        (splitAuxP (sortLenDesc (delims.map String.toList)) text.toList.length
            text.toList [] 0 0).map (fun pr => String.mk pr.2.2)) ∧
    (∀ (x : String) (delims : List String), '(' ∉ x.toList → ')' ∉ x.toList →
      split_outside_parens ("(" ++ x ++ ")") delims = ["(" ++ x ++ ")"]) ∧
    split_outside_parens "A(to)B" ["to"] = ["A(to)B"] := by
  refine ⟨?_, ?_, paren_group_single_token, by decide⟩
  · intro text delims hnd tg i d hpr htg
    have hnd2 : ∀ d ∈ sortLenDesc (delims.map String.toList),
        '(' ∉ d ∧ ')' ∉ d := by
      intro e he
      rw [mem_sortLenDesc] at he
      obtain ⟨s, hs, hse⟩ := List.mem_map.mp he
      rw [← hse]
      exact hnd s hs
    have hmain := splitAuxP_connector_depth _ hnd2 text.toList.length
      text.toList [] [] 0 0 rfl rfl tg i d hpr htg
    rw [List.nil_append] at hmain
    exact ⟨hmain.1, hmain.2.1, (mem_sortLenDesc _ _).mp hmain.2.2⟩
  · intro text delims
    unfold split_outside_parens
    rw [← splitAuxP_erase (sortLenDesc (delims.map String.toList))
      text.toList.length text.toList [] 0 0]
    rw [List.map_map]
    rfl

/-- Witness for C4 at the input `"a,b"` with the code's delimiter set: the
connector `","` is emitted at position 1, where the nesting depth is 0. -/
theorem delim_in_parens_no_split_witness :
    depthAfter ("a,b".toList.take 1) 0 = 0 ∧ [','] <+: "a,b".toList.drop 1 ∧
      [','] ∈ (["to", ",", "@"].map String.toList) :=
  delim_in_parens_no_split.1 "a,b" ["to", ",", "@"] (by decide) true 1 [',']
    (by decide) rfl

/-- If no prefix in the list is applicable (starts the stripped text and
leaves a base unit), the `$`-branch loop falls through to the sentinel. -/
theorem dollarLoop_no_app (after stripped : List Char) (B : List (List Char)) :
    ∀ L, (∀ p ∈ L, ¬(p <+: stripped ∧ stripped.drop p.length ∈ B)) →
      dollarLoop after stripped B L = errTxt stripped := by
  intro L
  induction L with
  | nil => intro _; rfl
  | cons p rest ih =>
    intro h
    have hp := h p (List.mem_cons_self _ _)
    rw [dollarLoop,
      if_neg (fun hc => hp ⟨List.isPrefixOf_iff_prefix.mp hc.1, hc.2⟩)]
    exact ih (fun q hq => h q (List.mem_cons_of_mem _ hq))

/-- If no prefix in the list is applicable, the plain-branch loop falls
through to the sentinel. -/
theorem plainLoop_no_app (token stripped : List Char) (B : List (List Char)) :
    ∀ L, (∀ p ∈ L, ¬(p <+: stripped ∧ stripped.drop p.length ∈ B)) →
      plainLoop token stripped B L = errTxt stripped := by
  intro L
  induction L with
  | nil => intro _; rfl
  | cons p rest ih =>
    intro h
    have hp := h p (List.mem_cons_self _ _)
    rw [plainLoop,
      if_neg (fun hc => hp ⟨List.isPrefixOf_iff_prefix.mp hc.1, hc.2⟩)]
    exact ih (fun q hq => h q (List.mem_cons_of_mem _ hq))

/-- C6 (amended): `process_unit_token_no_paren` is total, and on every token
whose stripped core (the trimmed text after an optional `$` marker) matches
neither a base unit nor any multiplier-prefix-plus-base-unit combination, it
returns exactly the sentinel `Error: Undefined unit ... (no recognized
prefix)` built from the stripped core — except that a token consisting of `$`
followed by only whitespace returns the bare marker `"$"`.  The sentinel is an
ordinary return value which `resolve_compound_unit` threads into the final
output unchanged (third conjunct, at the spec's `"xyz"` example). -/
theorem unresolvable_sentinel (token : String) (B M : List String)
    (hB : strippedCore token.toList ∉ B.map String.toList)
    (hM : ∀ p ∈ M.map String.toList,
      ¬(p <+: strippedCore token.toList ∧
        (strippedCore token.toList).drop p.length ∈ B.map String.toList)) :
    (process_unit_token_no_paren token B M =
      if token.toList.head? = some '$' ∧ strippedCore token.toList = [] then "$"
      else String.mk (errTxt (strippedCore token.toList))) ∧
    process_unit_token_no_paren "xyz" ["m"] ["k"]
      = "Error: Undefined unit \x27xyz\x27 (no recognized prefix)" ∧
    resolve_compound_unit "xyz" ["m"] ["k"]
      = "Error: Undefined unit \x27xyz\x27 (no recognized prefix)" := by
  refine ⟨?_, by decide, by decide⟩
  have hM' : ∀ p ∈ sortLenDesc (M.map String.toList),
      ¬(p <+: strippedCore token.toList ∧
        (strippedCore token.toList).drop p.length ∈ B.map String.toList) :=
    fun p hp => hM p ((mem_sortLenDesc p _).mp hp)
  unfold process_unit_token_no_paren puTokNP
  by_cases hd : token.toList.head? = some '$'
  · have hsc : strippedCore token.toList = pyStrip (token.toList.drop 1) := by
      unfold strippedCore; rw [if_pos hd]
    rw [if_pos hd]
    by_cases hs : pyStrip (token.toList.drop 1) = []
    · have hcond : token.toList.head? = some '$' ∧ strippedCore token.toList = [] :=
        ⟨hd, by rw [hsc, hs]⟩
      simp only [hs, if_pos rfl]
      rw [if_pos hcond]
      rfl
    · simp only [if_neg hs]
      rw [← hsc] at hs ⊢
      rw [if_neg hB]
      rw [dollarLoop_no_app _ _ _ _ hM']
      rw [if_neg (fun hc => hs hc.2)]
  · have hsc : strippedCore token.toList = pyStrip token.toList := by
      unfold strippedCore; rw [if_neg hd]
    rw [if_neg hd]
    rw [← hsc]
    rw [if_neg hB]
    rw [plainLoop_no_app _ _ _ _ hM']
    rw [if_neg (fun hc => hd hc.1)]

/-- Witness for C6 at the spec's example: `"xyz"` with base units `{m}` and
multiplier `k` resolves to the sentinel. -/
theorem unresolvable_sentinel_witness :
    process_unit_token_no_paren "xyz" ["m"] ["k"] =
      (if ("xyz" : String).toList.head? = some '$' ∧ strippedCore "xyz".toList = []
       then "$" else String.mk (errTxt (strippedCore "xyz".toList))) :=
  (unresolvable_sentinel "xyz" ["m"] ["k"] (by decide) (by decide)).1

/-- C6 counterexample: the token `"$"` is in the claim's scope (its trimmed
text matches neither a base unit nor any multiplier-prefix-plus-base-unit
combination) yet `process_unit_token_no_paren` returns `"$"`, not a sentinel
string. -/
theorem unresolvable_sentinel_cex :
    (∀ p ∈ (["k"].map String.toList),
      ¬(p <+: strippedCore ("$" : String).toList ∧
        (strippedCore ("$" : String).toList).drop p.length ∈ ["m"].map String.toList)) ∧
    strippedCore ("$" : String).toList ∉ ["m"].map String.toList ∧
    process_unit_token_no_paren "$" ["m"] ["k"] = "$" ∧
    ("$" : String) ≠ "Error: Undefined unit \x27\x27 (no recognized prefix)" ∧
    ("$" : String) ≠ "Error: Undefined unit \x27$\x27 (no recognized prefix)" := by
  decide

/-! ### Longest multiplier prefix wins -/

theorem insertLenDesc_pairwise (x : List Char) (l : List (List Char))
    (h : l.Pairwise (fun a b : List Char => b.length ≤ a.length)) :
    (insertLenDesc x l).Pairwise (fun a b : List Char => b.length ≤ a.length) := by
  induction l with
  | nil => simp [insertLenDesc]
  | cons y t ih =>
    rw [List.pairwise_cons] at h
    rw [insertLenDesc]
    by_cases hlt : x.length < y.length
    · rw [if_pos hlt]
      rw [List.pairwise_cons]
      refine ⟨?_, ih h.2⟩
      intro b hb
      rcases (mem_insertLenDesc b x t).mp hb with hb | hb
      · subst hb; omega
      · exact h.1 b hb
    · rw [if_neg hlt]
      rw [List.pairwise_cons]
      refine ⟨?_, List.pairwise_cons.mpr h⟩
      intro b hb
      rcases List.mem_cons.mp hb with hb | hb
      · subst hb; omega
      · have := h.1 b hb; omega

theorem sortLenDesc_pairwise (l : List (List Char)) :
    (sortLenDesc l).Pairwise (fun a b : List Char => b.length ≤ a.length) := by
  induction l with
  | nil => simp [sortLenDesc]
  | cons x t ih => exact insertLenDesc_pairwise x _ ih

/-- In a length-descending list, the first entry satisfying a predicate has
maximal length among all entries satisfying it. -/
theorem find_first_max (P : List Char → Bool) :
    ∀ (L : List (List Char)), L.Pairwise (fun a b : List Char => b.length ≤ a.length) →
      ∀ r, L.find? P = some r → ∀ s ∈ L, P s = true → s.length ≤ r.length := by
  intro L
  induction L with
  | nil => intro _ r hr; simp at hr
  | cons y t ih =>
    intro hpw r hr s hs hPs
    rw [List.pairwise_cons] at hpw
    by_cases hy : P y = true
    · rw [List.find?_cons_of_pos _ hy] at hr
      injection hr with hr
      subst hr
      rcases List.mem_cons.mp hs with hs | hs
      · subst hs; exact le_refl _
      · exact hpw.1 s hs
    · rw [List.find?_cons_of_neg _ hy] at hr
      rcases List.mem_cons.mp hs with hs | hs
      · subst hs; exact absurd hPs hy
      · exact ih hpw.2 r hr s hs hPs

theorem pyFindAux_isSome_of_infix (r : List Char) :
    ∀ (s : List Char) (i : Nat), r <:+: s → (pyFindAux r s i).isSome := by
  intro s
  induction s with
  | nil =>
    intro i h
    have : r = [] := List.eq_nil_of_infix_nil h
    simp [pyFindAux, this]
  | cons c t ih =>
    intro i h
    rw [pyFindAux]
    by_cases hp : r.isPrefixOf (c :: t) = true
    · rw [if_pos hp]; rfl
    · rw [if_neg hp]
      rcases List.infix_cons_iff.mp h with h | h
      · exact absurd (List.isPrefixOf_iff_prefix.mpr h) hp
      · exact ih (i + 1) h

theorem pyFind_isSome_of_sub {r s : List Char} (h : r <:+: s) :
    (pyFind s r).isSome := pyFindAux_isSome_of_infix r s 0 h

theorem stripLead_suffix (l : List Char) : stripLead l <:+ l :=
  List.dropWhile_suffix _

theorem stripTrail_pre (l : List Char) : stripTrail l <+: l := by
  unfold stripTrail
  have h : l.reverse.dropWhile (fun c => isWs c) <:+ l.reverse :=
    List.dropWhile_suffix _
  obtain ⟨w, hw⟩ := h
  refine ⟨w.reverse, ?_⟩
  have := congrArg List.reverse hw
  simpa using this

theorem pyStrip_infix (l : List Char) : pyStrip l <:+: l := by
  obtain ⟨t, ht⟩ := stripTrail_pre (stripLead l)
  obtain ⟨s, hs⟩ := stripLead_suffix l
  refine ⟨s, t, ?_⟩
  show s ++ pyStrip l ++ t = l
  unfold pyStrip
  rw [List.append_assoc, ht, hs]

/-- If the first applicable entry of the prefix list is `r` and `r` occurs in
`after`, the `$`-branch loop behaves as if `r` were the only candidate. -/
theorem dollarLoop_eq_found (after stripped : List Char) (B : List (List Char)) :
    ∀ (L : List (List Char)) (r : List Char),
      L.find? (fun s => s.isPrefixOf stripped && decide (stripped.drop s.length ∈ B))
        = some r →
      (pyFind after r).isSome →
      dollarLoop after stripped B L = dollarLoop after stripped B [r] := by
  intro L
  induction L with
  | nil => intro r hr _; simp at hr
  | cons y t ih =>
    intro r hr hf
    by_cases hy : (y.isPrefixOf stripped && decide (stripped.drop y.length ∈ B)) = true
    · have hyr : y = r := by
        rcases List.find?_cons_eq_some.mp hr with ⟨_, h2⟩ | ⟨hna, _⟩
        · exact h2
        · rw [hy] at hna; exact absurd hna (by decide)
      subst hyr
      have hcond : y.isPrefixOf stripped = true ∧ stripped.drop y.length ∈ B := by
        rw [Bool.and_eq_true, decide_eq_true_iff] at hy
        exact hy
      rw [dollarLoop, if_pos hcond, dollarLoop, if_pos hcond]
      cases hfind : pyFind after y with
      | none => rw [hfind] at hf; simp at hf
      | some idx => rfl
    · have hrt : List.find?
          (fun s => s.isPrefixOf stripped && decide (stripped.drop s.length ∈ B)) t
          = some r := by
        rcases List.find?_cons_eq_some.mp hr with ⟨hpa, _⟩ | ⟨_, h2⟩
        · exact absurd hpa hy
        · exact h2
      have hcond : ¬(y.isPrefixOf stripped = true ∧ stripped.drop y.length ∈ B) := by
        intro hc
        exact hy (by rw [Bool.and_eq_true, decide_eq_true_iff]; exact hc)
      rw [dollarLoop, if_neg hcond]
      exact ih r hrt hf

/-- If the first applicable entry of the prefix list is `r` and `r` occurs in
`token`, the plain-branch loop behaves as if `r` were the only candidate. -/
theorem plainLoop_eq_found (token stripped : List Char) (B : List (List Char)) :
    ∀ (L : List (List Char)) (r : List Char),
      L.find? (fun s => s.isPrefixOf stripped && decide (stripped.drop s.length ∈ B))
        = some r →
      (pyFind token r).isSome →
      plainLoop token stripped B L = plainLoop token stripped B [r] := by
  intro L
  induction L with
  | nil => intro r hr _; simp at hr
  | cons y t ih =>
    intro r hr hf
    by_cases hy : (y.isPrefixOf stripped && decide (stripped.drop y.length ∈ B)) = true
    · have hyr : y = r := by
        rcases List.find?_cons_eq_some.mp hr with ⟨_, h2⟩ | ⟨hna, _⟩
        · exact h2
        · rw [hy] at hna; exact absurd hna (by decide)
      subst hyr
      have hcond : y.isPrefixOf stripped = true ∧ stripped.drop y.length ∈ B := by
        rw [Bool.and_eq_true, decide_eq_true_iff] at hy
        exact hy
      rw [plainLoop, if_pos hcond, plainLoop, if_pos hcond]
      cases hfind : pyFind token y with
      | none => rw [hfind] at hf; simp at hf
      | some idx => rfl
    · have hrt : List.find?
          (fun s => s.isPrefixOf stripped && decide (stripped.drop s.length ∈ B)) t
          = some r := by
        rcases List.find?_cons_eq_some.mp hr with ⟨hpa, _⟩ | ⟨_, h2⟩
        · exact absurd hpa hy
        · exact h2
      have hcond : ¬(y.isPrefixOf stripped = true ∧ stripped.drop y.length ∈ B) := by
        intro hc
        exact hy (by rw [Bool.and_eq_true, decide_eq_true_iff]; exact hc)
      rw [plainLoop, if_neg hcond]
      exact ih r hrt hf

/-- On an unresolved `$`-token whose stripped remainder is nonempty and not a
base unit, `process_unit_token_no_paren` is its `$`-branch prefix loop. -/
theorem puTokNP_eq_dollarLoop {token : List Char} {B M : List (List Char)}
    (hd : token.head? = some '$') (hne : pyStrip (token.drop 1) ≠ [])
    (hnb : pyStrip (token.drop 1) ∉ B) :
    puTokNP token B M = dollarLoop (token.drop 1) (pyStrip (token.drop 1)) B
      (sortLenDesc M) := by
  unfold puTokNP
  simp only [if_pos hd]
  rw [if_neg hne, if_neg hnb]

/-- On an unmarked token whose stripped text is not a base unit,
`process_unit_token_no_paren` is its plain-branch prefix loop. -/
theorem puTokNP_eq_plainLoop {token : List Char} {B M : List (List Char)}
    (hd : ¬token.head? = some '$') (hnb : pyStrip token ∉ B) :
    puTokNP token B M = plainLoop token (pyStrip token) B (sortLenDesc M) := by
  unfold puTokNP
  simp only [if_neg hd]
  rw [if_neg hnb]

/-- C5: whenever more than one multiplier prefix both begins the stripped token
and, after removal, leaves a known base unit, `process_unit_token_no_paren`
strips a prefix of maximal length among the applicable ones (prefixes are
tried longest first, so a strictly shorter applicable prefix never wins):
there is an applicable `r`, no applicable prefix is longer, `r` is strictly
longer than the shorter applicable prefix `q`, and the function's result is
exactly what the loop produces when `r` is the only candidate. -/
theorem longest_applicable_wins (token : String) (B M : List String)
    (p q : List Char)
    (hpM : p ∈ M.map String.toList) (hqM : q ∈ M.map String.toList)
    (hp : p <+: strippedCore token.toList ∧
      (strippedCore token.toList).drop p.length ∈ B.map String.toList)
    (hq : q <+: strippedCore token.toList ∧
      (strippedCore token.toList).drop q.length ∈ B.map String.toList)
    (hqp : q.length < p.length)
    (hnb : strippedCore token.toList ∉ B.map String.toList) :
    ∃ r ∈ M.map String.toList,
      (r <+: strippedCore token.toList ∧
        (strippedCore token.toList).drop r.length ∈ B.map String.toList) ∧
      (∀ s ∈ M.map String.toList,
        s <+: strippedCore token.toList →
        (strippedCore token.toList).drop s.length ∈ B.map String.toList →
        s.length ≤ r.length) ∧
      q.length < r.length ∧
      process_unit_token_no_paren token B M =
        String.mk (if token.toList.head? = some '$'
          then dollarLoop (token.toList.drop 1) (strippedCore token.toList)
            (B.map String.toList) [r]
          else plainLoop token.toList (strippedCore token.toList)
            (B.map String.toList) [r]) := by
  have hpP : (fun s => s.isPrefixOf (strippedCore token.toList) &&
      decide ((strippedCore token.toList).drop s.length ∈ B.map String.toList)) p
      = true := by
    rw [Bool.and_eq_true, decide_eq_true_iff]
    exact ⟨List.isPrefixOf_iff_prefix.mpr hp.1, hp.2⟩
  have hsome : ((sortLenDesc (M.map String.toList)).find?
      (fun s => s.isPrefixOf (strippedCore token.toList) &&
        decide ((strippedCore token.toList).drop s.length ∈ B.map String.toList))).isSome := by
    rw [List.find?_isSome]
    exact ⟨p, (mem_sortLenDesc p _).mpr hpM, hpP⟩
  obtain ⟨r, hr⟩ := Option.isSome_iff_exists.mp hsome
  have hrP := List.find?_some hr
  rw [Bool.and_eq_true, decide_eq_true_iff] at hrP
  have hrapp : r <+: strippedCore token.toList ∧
      (strippedCore token.toList).drop r.length ∈ B.map String.toList :=
    ⟨List.isPrefixOf_iff_prefix.mp hrP.1, hrP.2⟩
  have hrmem : r ∈ M.map String.toList :=
    (mem_sortLenDesc r _).mp (List.mem_of_find?_eq_some hr)
  have hmax : ∀ s ∈ M.map String.toList,
      s <+: strippedCore token.toList →
      (strippedCore token.toList).drop s.length ∈ B.map String.toList →
      s.length ≤ r.length := by
    intro s hs hs1 hs2
    refine find_first_max _ _ (sortLenDesc_pairwise _) r hr s
      ((mem_sortLenDesc s _).mpr hs) ?_
    rw [Bool.and_eq_true, decide_eq_true_iff]
    exact ⟨List.isPrefixOf_iff_prefix.mpr hs1, hs2⟩
  have hpr : p.length ≤ r.length := hmax p hpM hp.1 hp.2
  have hst_ne : strippedCore token.toList ≠ [] := by
    intro h0
    rw [h0] at hp hnb
    have hpnil : p = [] := List.prefix_nil.mp hp.1
    rw [hpnil] at hp
    exact hnb (by simpa using hp.2)
  refine ⟨r, hrmem, hrapp, hmax, by omega, ?_⟩
  unfold process_unit_token_no_paren
  by_cases hd : token.toList.head? = some '$'
  · have hsc : strippedCore token.toList = pyStrip (token.toList.drop 1) := by
      unfold strippedCore; rw [if_pos hd]
    have hne : pyStrip (token.toList.drop 1) ≠ [] := by rw [← hsc]; exact hst_ne
    have hnb' : pyStrip (token.toList.drop 1) ∉ B.map String.toList := by
      rw [← hsc]; exact hnb
    rw [puTokNP_eq_dollarLoop hd hne hnb']
    rw [if_pos hd]
    congr 1
    rw [← hsc]
    have hinf : r <:+: (token.toList.drop 1) :=
      List.IsInfix.trans (List.IsPrefix.isInfix hrapp.1)
        (by rw [hsc]; exact pyStrip_infix _)
    exact dollarLoop_eq_found _ _ _ _ r hr (pyFind_isSome_of_sub hinf)
  · have hsc : strippedCore token.toList = pyStrip token.toList := by
      unfold strippedCore; rw [if_neg hd]
    have hnb' : pyStrip token.toList ∉ B.map String.toList := by
      rw [← hsc]; exact hnb
    rw [puTokNP_eq_plainLoop hd hnb']
    rw [if_neg hd]
    congr 1
    rw [← hsc]
    have hinf : r <:+: token.toList :=
      List.IsInfix.trans (List.IsPrefix.isInfix hrapp.1)
        (by rw [hsc]; exact pyStrip_infix _)
    exact plainLoop_eq_found _ _ _ _ r hr (pyFind_isSome_of_sub hinf)

/-- Witness for C5: token `"mss"`, base units `{s, ss}`, multipliers
`{m, ms}` — both `m` and `ms` are applicable and the longer `ms` wins,
resolving to `"$s"`. -/
theorem longest_applicable_wins_witness :
    (∃ r ∈ (["m", "ms"].map String.toList),
      (r <+: strippedCore ("mss" : String).toList ∧
        (strippedCore ("mss" : String).toList).drop r.length
          ∈ ["s", "ss"].map String.toList) ∧
      (∀ s ∈ (["m", "ms"].map String.toList),
        s <+: strippedCore ("mss" : String).toList →
        (strippedCore ("mss" : String).toList).drop s.length
          ∈ ["s", "ss"].map String.toList →
        s.length ≤ r.length) ∧
      (['m'] : List Char).length < r.length ∧
      process_unit_token_no_paren "mss" ["s", "ss"] ["m", "ms"] =
        String.mk (if ("mss" : String).toList.head? = some '$'
          then dollarLoop (("mss" : String).toList.drop 1)
            (strippedCore ("mss" : String).toList)
            (["s", "ss"].map String.toList) [r]
          else plainLoop ("mss" : String).toList
            (strippedCore ("mss" : String).toList)
            (["s", "ss"].map String.toList) [r])) ∧
    process_unit_token_no_paren "mss" ["s", "ss"] ["m", "ms"] = "$s" :=
  ⟨longest_applicable_wins "mss" ["s", "ss"] ["m", "ms"] ['m', 's'] ['m']
    (by decide) (by decide) (by decide) (by decide) (by decide) (by decide),
   by decide⟩

/-! ### Content tokens are never connector strings -/

theorem concat_ne_of_last (cur : List Char) (c : Char) (l : List Char)
    (h : l.getLast? ≠ some c) : cur ++ [c] ≠ l := by
  intro he
  rw [← he] at h
  exact h (List.getLast?_concat _)

theorem splitAuxT_erase (delims : List (List Char)) :
    ∀ (fuel : Nat) (cs current : List Char) (depth : Nat),
      (splitAuxT delims fuel cs current depth).map Prod.snd =
        splitAux delims fuel cs current depth := by
  intro fuel
  induction fuel with
  | zero =>
    intro cs current depth
    cases cs with
    | nil => by_cases hc : current = [] <;> simp [splitAuxT, splitAux, hc]
    | cons ch rest => simp [splitAuxT, splitAux]
  | succ fuel ih =>
    intro cs current depth
    cases cs with
    | nil => by_cases hc : current = [] <;> simp [splitAuxT, splitAux, hc]
    | cons ch rest =>
      by_cases h1 : ch = '('
      · simp only [splitAuxT, splitAux, if_pos h1]
        exact ih _ _ _
      · by_cases h2 : ch = ')'
        · simp only [splitAuxT, splitAux, if_neg h1, if_pos h2]
          exact ih _ _ _
        · by_cases h3 : depth = 0
          · simp only [splitAuxT, splitAux, if_neg h1, if_neg h2, if_pos h3]
            cases hm : delimMatch delims (ch :: rest) with
            | some d =>
              by_cases hc : current = [] <;>
                simp [hc, List.map_append, ih]
            | none => exact ih _ _ _
          · simp only [splitAuxT, splitAux, if_neg h1, if_neg h2, if_neg h3]
            exact ih _ _ _

/-- `delimMatch` over the fixed connector set fails only when no connector
starts the remaining text. -/
theorem connectors_delimMatch_none {cs : List Char}
    (h : delimMatch (sortLenDesc connectors) cs = none) :
    ∀ d ∈ connectors, ¬d.isPrefixOf cs = true := by
  have hsort : sortLenDesc connectors = connectors := rfl
  rw [hsort] at h
  unfold delimMatch at h
  cases hf : List.find? (fun d => d.isPrefixOf cs) connectors with
  | none =>
    intro d hd
    exact List.find?_eq_none.mp hf d hd
  | some e =>
    rw [hf] at h
    dsimp only at h
    have he : e ∈ connectors := List.mem_of_find?_eq_some hf
    have hne : ¬e.isEmpty = true := by
      have : e = ['t', 'o'] ∨ e = [','] ∨ e = ['@'] := by
        simpa [connectors] using he
      rcases this with h1 | h1 | h1 <;> subst h1 <;> decide
    rw [if_neg hne] at h
    exact absurd h (by simp)

/-- Invariant run of the tagged scanner over the fixed connector set: content
tokens are never connector strings.  The invariant: at positive depth the
accumulator contains `(`; the accumulator is never itself a connector; and if
it is exactly `"t"` the next input character is not `o`. -/
theorem splitAuxT_content_inv :
    ∀ (fuel : Nat) (cs current : List Char) (depth : Nat),
      cs.length ≤ fuel →
      (0 < depth → '(' ∈ current) →
      current ≠ [','] → current ≠ ['@'] → current ≠ ['t', 'o'] →
      (current = ['t'] → cs.head? ≠ some 'o') →
      ∀ pr ∈ splitAuxT (sortLenDesc connectors) fuel cs current depth,
        pr.1 = false → pr.2 ∉ connectors := by
  intro fuel
  induction fuel with
  | zero =>
    intro cs current depth hf hdep hc1 hc2 hc3 _ pr hpr htag
    cases cs with
    | nil =>
      by_cases hc : current = []
      · simp [splitAuxT, hc] at hpr
      · simp only [splitAuxT, if_neg hc, List.mem_singleton] at hpr
        subst hpr
        simp only [connectors, List.mem_cons, List.not_mem_nil, or_false]
        push_neg
        exact ⟨hc3, hc1, hc2⟩
    | cons ch rest => simp at hf
  | succ fuel ih =>
    intro cs current depth hf hdep hc1 hc2 hc3 hct pr hpr htag
    cases cs with
    | nil =>
      by_cases hc : current = []
      · simp [splitAuxT, hc] at hpr
      · simp only [splitAuxT, if_neg hc, List.mem_singleton] at hpr
        subst hpr
        simp only [connectors, List.mem_cons, List.not_mem_nil, or_false]
        push_neg
        exact ⟨hc3, hc1, hc2⟩
    | cons ch rest =>
      have hrest : rest.length ≤ fuel := by
        simp only [List.length_cons] at hf; omega
      by_cases h1 : ch = '('
      · rw [splitAuxT, if_pos h1] at hpr
        subst h1
        refine ih rest (current ++ ['(']) (depth + 1) hrest ?_ ?_ ?_ ?_ ?_ pr hpr htag
        · intro _; exact List.mem_append_right _ (List.mem_singleton.mpr rfl)
        · exact concat_ne_of_last _ _ _ (by decide)
        · exact concat_ne_of_last _ _ _ (by decide)
        · exact concat_ne_of_last _ _ _ (by decide)
        · intro hcur; exact absurd hcur (concat_ne_of_last _ _ _ (by decide))
      · by_cases h2 : ch = ')'
        · rw [splitAuxT, if_neg h1, if_pos h2] at hpr
          subst h2
          refine ih rest (current ++ [')']) (depth - 1) hrest ?_ ?_ ?_ ?_ ?_ pr hpr htag
          · intro hd
            have : 0 < depth := by omega
            exact List.mem_append_left _ (hdep this)
          · exact concat_ne_of_last _ _ _ (by decide)
          · exact concat_ne_of_last _ _ _ (by decide)
          · exact concat_ne_of_last _ _ _ (by decide)
          · intro hcur; exact absurd hcur (concat_ne_of_last _ _ _ (by decide))
        · by_cases h3 : depth = 0
          · rw [splitAuxT, if_neg h1, if_neg h2, if_pos h3] at hpr
            cases hm : delimMatch (sortLenDesc connectors) (ch :: rest) with
            | some d =>
              rw [hm] at hpr
              have hd1 : 1 ≤ d.length := by
                have := delimMatch_some_ne_nil hm
                cases d with
                | nil => exact absurd rfl this
                | cons a t => simp
              have hdrop : ((ch :: rest).drop d.length).length ≤ fuel := by
                simp only [List.length_drop, List.length_cons]
                omega
              rcases List.mem_append.mp hpr with hpr | hpr
              · by_cases hc : current = []
                · simp [hc] at hpr
                · simp only [if_neg hc, List.mem_singleton] at hpr
                  subst hpr
                  simp only [connectors, List.mem_cons, List.not_mem_nil, or_false]
                  push_neg
                  exact ⟨hc3, hc1, hc2⟩
              · rcases List.mem_cons.mp hpr with hpr | hpr
                · subst hpr; simp at htag
                · refine ih _ [] 0 hdrop ?_ ?_ ?_ ?_ ?_ pr hpr htag
                  · intro h0; omega
                  · intro h0; exact absurd h0 (by decide)
                  · intro h0; exact absurd h0 (by decide)
                  · intro h0; exact absurd h0 (by decide)
                  · intro h0; exact absurd h0 (by decide)
            | none =>
              rw [hm] at hpr
              have hnomatch := connectors_delimMatch_none hm
              have hto : ¬(['t', 'o'].isPrefixOf (ch :: rest) = true) :=
                hnomatch _ (by simp [connectors])
              have hcm : ¬([','].isPrefixOf (ch :: rest) = true) :=
                hnomatch _ (by simp [connectors])
              have ham : ¬(['@'].isPrefixOf (ch :: rest) = true) :=
                hnomatch _ (by simp [connectors])
              have hchc : ch ≠ ',' := by
                intro h0; subst h0; exact hcm (by simp [List.isPrefixOf])
              have hcha : ch ≠ '@' := by
                intro h0; subst h0; exact ham (by simp [List.isPrefixOf])
              refine ih rest (current ++ [ch]) depth hrest ?_ ?_ ?_ ?_ ?_ pr hpr htag
              · intro h0; omega
              · exact concat_ne_of_last _ _ _
                  (by simp; intro h0; exact hchc h0.symm)
              · exact concat_ne_of_last _ _ _
                  (by simp; intro h0; exact hcha h0.symm)
              · intro he
                have hch : ch = 'o' := by
                  have h9 : (current ++ [ch]).getLast? = some ch :=
                    List.getLast?_concat current
                  rw [he] at h9
                  simpa using h9.symm
                have hcur : current = ['t'] := by
                  subst hch
                  have : current ++ ['o'] = ['t'] ++ ['o'] := he
                  exact List.append_cancel_right this
                have := hct hcur
                rw [hch] at this
                simp at this
              · intro he
                have hch : ch = 't' := by
                  have h9 : (current ++ [ch]).getLast? = some ch :=
                    List.getLast?_concat current
                  rw [he] at h9
                  simpa using h9.symm
                intro ho
                apply hto
                cases rest with
                | nil => simp at ho
                | cons r0 rt =>
                  have hr0 : r0 = 'o' := by simpa using ho
                  subst hch; subst hr0
                  simp [List.isPrefixOf]
          · rw [splitAuxT, if_neg h1, if_neg h2, if_neg h3] at hpr
            have hdp : 0 < depth := Nat.pos_of_ne_zero h3
            have hpar : '(' ∈ current := hdep hdp
            refine ih rest (current ++ [ch]) depth hrest ?_ ?_ ?_ ?_ ?_ pr hpr htag
            · intro _; exact List.mem_append_left _ hpar
            · intro he
              have hmem : '(' ∈ current ++ [ch] := List.mem_append_left _ hpar
              rw [he] at hmem
              exact absurd hmem (by decide)
            · intro he
              have hmem : '(' ∈ current ++ [ch] := List.mem_append_left _ hpar
              rw [he] at hmem
              exact absurd hmem (by decide)
            · intro he
              have hmem : '(' ∈ current ++ [ch] := List.mem_append_left _ hpar
              rw [he] at hmem
              exact absurd hmem (by decide)
            · intro he
              have hmem : '(' ∈ current ++ [ch] := List.mem_append_left _ hpar
              rw [he] at hmem
              exact absurd hmem (by decide)

/-- C10: with the fixed connector set, no content token emitted by the
tokenizer is ever string-equal to a connector (first conjunct, over the tagged
scanner whose tag-erasure is exactly `split_outside_parens` — second
conjunct), so the membership test of `resolve_compound_unit` classifies
tokens exactly. -/
theorem content_token_ne_connector :
    (∀ (text : String) (pr : Bool × List Char),
      pr ∈ splitAuxT (sortLenDesc connectors) text.toList.length text.toList [] 0 →
      pr.1 = false → pr.2 ∉ connectors) ∧
    (∀ (text : String),
      split_outside_parens text ["to", ",", "@"] =
        (splitAuxT (sortLenDesc connectors) text.toList.length text.toList [] 0).map
          (fun pr => String.mk pr.2)) := by
  constructor
  · intro text pr hpr htag
    refine splitAuxT_content_inv text.toList.length text.toList [] 0
      (Nat.le_refl _) ?_ ?_ ?_ ?_ ?_ pr hpr htag
    · intro h0; exact absurd h0 (by omega)
    · intro h0; exact absurd h0 (by decide)
    · intro h0; exact absurd h0 (by decide)
    · intro h0; exact absurd h0 (by decide)
    · intro h0; exact absurd h0 (by decide)
  · intro text
    unfold split_outside_parens
    rw [← splitAuxT_erase]
    rw [List.map_map]
    rfl

/-- Witness for C10 at `text := "a,b"`: the content-tagged token `"a"` is not
a connector. -/
theorem content_token_ne_connector_witness :
    (false, ['a']) ∈
      splitAuxT (sortLenDesc connectors) ("a,b" : String).toList.length
        ("a,b" : String).toList [] 0 ∧
    (['a'] : List Char) ∉ connectors :=
  ⟨by decide,
   content_token_ne_connector.1 "a,b" (false, ['a']) (by decide) rfl⟩

/-! ### Properties of the pattern matcher -/

theorem firstSome_cons {α β} (a : α) (t : List α) (f : α → Option β) :
    firstSome (a :: t) f =
      match f a with | some b => some b | none => firstSome t f := rfl

theorem firstSome_eq_some {α β} {l : List α} {f : α → Option β} {b : β}
    (h : firstSome l f = some b) : ∃ a ∈ l, f a = some b := by
  induction l with
  | nil => simp [firstSome] at h
  | cons a t ih =>
    rw [firstSome_cons] at h
    cases hfa : f a with
    | some b0 =>
      rw [hfa] at h
      injection h with h
      exact ⟨a, List.mem_cons_self _ _, by rw [hfa, h]⟩
    | none =>
      rw [hfa] at h
      obtain ⟨a0, ha0, hfa0⟩ := ih h
      exact ⟨a0, List.mem_cons_of_mem _ ha0, hfa0⟩

theorem firstSome_eq_none {α β} {l : List α} {f : α → Option β}
    (h : ∀ a ∈ l, f a = none) : firstSome l f = none := by
  induction l with
  | nil => rfl
  | cons a t ih =>
    rw [firstSome_cons, h a (List.mem_cons_self _ _)]
    exact ih (fun x hx => h x (List.mem_cons_of_mem _ hx))

theorem splitsDesc_zero (cs : List Char) : splitsDesc cs 0 = [([], cs)] := by
  simp [splitsDesc, List.range_succ]

theorem splitsDesc_succ (cs : List Char) (n : Nat) :
    splitsDesc cs (n + 1) =
      (cs.take (n + 1), cs.drop (n + 1)) :: splitsDesc cs n := by
  simp [splitsDesc, List.range_succ]

theorem mem_splitsDesc {cs : List Char} {n : Nat} {pr : List Char × List Char}
    (h : pr ∈ splitsDesc cs n) : ∃ k ≤ n, pr = (cs.take k, cs.drop k) := by
  unfold splitsDesc at h
  obtain ⟨k, hk, hpr⟩ := List.mem_map.mp h
  rw [List.mem_reverse, List.mem_range] at hk
  exact ⟨k, by omega, hpr.symm⟩

theorem mem_splitsAsc {cs : List Char} {n : Nat} {pr : List Char × List Char}
    (h : pr ∈ splitsAsc cs n) : ∃ k ≤ n, pr = (cs.take k, cs.drop k) := by
  unfold splitsAsc at h
  obtain ⟨k, hk, hpr⟩ := List.mem_map.mp h
  rw [List.mem_range] at hk
  exact ⟨k, by omega, hpr.symm⟩

theorem mem_wsCands_append {cs : List Char} {pr : List Char × List Char}
    (h : pr ∈ wsCands cs) : pr.1 ++ pr.2 = cs := by
  obtain ⟨k, _, hpr⟩ := mem_splitsDesc h
  rw [hpr]
  exact List.take_append_drop k cs

theorem mem_unitCands_append {cs : List Char} {pr : List Char × List Char}
    (h : pr ∈ unitCands cs) : pr.1 ++ pr.2 = cs := by
  obtain ⟨k, _, hpr⟩ := mem_splitsAsc h
  rw [hpr]
  exact List.take_append_drop k cs

theorem mem_signCands_append {cs : List Char} {pr : List Char × List Char}
    (h : pr ∈ signCands cs) : pr.1 ++ pr.2 = cs := by
  unfold signCands at h
  cases cs with
  | nil => simp at h; subst h; rfl
  | cons c t =>
    dsimp only at h
    by_cases hc : isSignC c = true
    · rw [if_pos hc] at h
      rcases List.mem_cons.mp h with h | h
      · rw [h]; rfl
      · simp at h; subst h; rfl
    · rw [if_neg hc] at h
      simp at h; subst h; rfl

theorem mem_digitCands_append {cs : List Char} {pr : List Char × List Char}
    (h : pr ∈ digitCands cs) : pr.1 ++ pr.2 = cs := by
  obtain ⟨k, _, hpr⟩ := mem_splitsDesc h
  rw [hpr]
  exact List.take_append_drop k cs

theorem mem_fracCands_append {cs : List Char} {pr : List Char × List Char}
    (h : pr ∈ fracCands cs) : pr.1 ++ pr.2 = cs := by
  unfold fracCands at h
  cases cs with
  | nil => simp at h; subst h; rfl
  | cons c t =>
    dsimp only at h
    by_cases hc : c = '.'
    · rw [if_pos hc] at h
      rcases List.mem_append.mp h with h | h
      · obtain ⟨j, _, hpr⟩ := List.mem_map.mp h
        rw [← hpr]
        subst hc
        simp [List.take_append_drop]
      · simp at h; subst h; rfl
    · rw [if_neg hc] at h
      simp at h; subst h; rfl

theorem takeWhile_getElem_stop (p : Char → Bool) :
    ∀ (l : List Char), (l.takeWhile p).length < l.length →
      ∃ a, l.get? (l.takeWhile p).length = some a ∧ p a = false := by
  intro l
  induction l with
  | nil => intro h; simp at h
  | cons c t ih =>
    intro h
    by_cases hc : p c = true
    · rw [List.takeWhile_cons, if_pos hc] at h ⊢
      simp only [List.length_cons] at h ⊢
      obtain ⟨a, ha, hpa⟩ := ih (by omega)
      exact ⟨a, by simpa using ha, hpa⟩
    · rw [List.takeWhile_cons, if_neg hc]
      exact ⟨c, by simp, by simpa using hc⟩

theorem eq_take_cons_drop {l : List Char} {k : Nat} {a : Char}
    (h : l.get? k = some a) : l = l.take k ++ a :: l.drop (k + 1) := by
  have hk : k < l.length := by
    by_contra hk
    rw [List.get?_eq_none.mpr (by omega)] at h
    exact absurd h (by simp)
  have hget : l[k] = a := by
    rw [List.get?_eq_getElem?, List.getElem?_eq_getElem hk] at h
    injection h with h
  conv_lhs => rw [← List.take_append_drop k l]
  congr 1
  rw [List.drop_eq_getElem_cons hk, hget]

theorem mem_parCands_append {cs : List Char} {pr : List Char × List Char}
    (h : pr ∈ parCands cs) : pr.1 ++ pr.2 = cs := by
  unfold parCands at h
  cases cs with
  | nil => simp at h; subst h; rfl
  | cons c t =>
    dsimp only at h
    by_cases hc : c = '('
    · rw [if_pos hc] at h
      by_cases hk : (t.takeWhile (fun x => x ≠ ')')).length < t.length
      · rw [if_pos hk] at h
        rcases List.mem_cons.mp h with h | h
        · obtain ⟨a, ha, hpa⟩ := takeWhile_getElem_stop _ t hk
          have ha' : a = ')' := by
            by_contra hne
            rw [decide_eq_false_iff_not] at hpa
            exact hpa (by simpa using hne)
          rw [h]
          subst hc
          subst ha'
          show '(' :: (List.take _ t ++ [')'] ++ List.drop _ t) = '(' :: t
          congr 1
          rw [List.append_assoc]
          exact (eq_take_cons_drop ha).symm
        · simp at h; subst h; rfl
      · rw [if_neg hk] at h
        simp at h; subst h; rfl
    · rw [if_neg hc] at h
      simp at h; subst h; rfl

theorem mem_numCands_append {cs : List Char} {pr : List Char × List Char}
    (h : pr ∈ numCands cs) : pr.1 ++ pr.2 = cs := by
  unfold numCands at h
  obtain ⟨sr, hsr, h⟩ := List.mem_flatMap.mp h
  obtain ⟨dr, hdr, h⟩ := List.mem_flatMap.mp h
  obtain ⟨fr, hfr, h⟩ := List.mem_map.mp h
  have h1 := mem_signCands_append hsr
  have h2 := mem_digitCands_append hdr
  have h3 := mem_fracCands_append hfr
  rw [← h]
  show sr.1 ++ dr.1 ++ fr.1 ++ fr.2 = cs
  rw [List.append_assoc (sr.1 ++ dr.1), h3, List.append_assoc, h2, h1]

theorem mem_take_of_le_takeWhile (p : Char → Bool) :
    ∀ (l : List Char) (j : Nat), j ≤ (l.takeWhile p).length →
      ∀ x ∈ l.take j, p x = true := by
  intro l
  induction l with
  | nil => intro j _ x hx; simp at hx
  | cons c t ih =>
    intro j hj x hx
    cases j with
    | zero => simp at hx
    | succ j =>
      by_cases hc : p c = true
      · rw [List.takeWhile_cons, if_pos hc] at hj
        simp only [List.length_cons] at hj
        rw [List.take_succ_cons] at hx
        rcases List.mem_cons.mp hx with hx | hx
        · rw [hx]; exact hc
        · exact ih j (by omega) x hx
      · rw [List.takeWhile_cons, if_neg hc] at hj
        simp at hj

/-- When the final `\s*` plus the `$` anchor succeed on `r6`, `r6` is all
whitespace, the quantifier consumes all of it, and nothing is left over. -/
theorem trailFS_some {β : Type} {g : List Char × List Char → β} {r6 : List Char} {b : β}
    (h : firstSome (wsCands r6)
      (fun tp => if endAnch tp.2 = true then some (g tp) else none) = some b) :
    (∀ c ∈ r6, isWs c = true) ∧ b = g (r6, []) := by
  by_cases hall : ∀ c ∈ r6, isWs c = true
  · refine ⟨hall, ?_⟩
    have hrun : (r6.takeWhile isWs).length = r6.length := by
      rw [List.takeWhile_eq_self_iff.mpr hall]
    unfold wsCands at h
    rw [hrun] at h
    cases hr6 : r6.length with
    | zero =>
      have hnil : r6 = [] := List.length_eq_zero.mp hr6
      rw [hr6, splitsDesc_zero] at h
      rw [firstSome_cons] at h
      subst hnil
      simp [endAnch] at h
      exact h.symm
    | succ n =>
      rw [hr6, splitsDesc_succ] at h
      rw [firstSome_cons] at h
      have htk : r6.take (n + 1) = r6 := List.take_of_length_le (by omega)
      have hdr : r6.drop (n + 1) = [] := List.drop_eq_nil_of_le (by omega)
      rw [htk, hdr] at h
      simp [endAnch] at h
      exact h.symm
  · exfalso
    push_neg at hall
    obtain ⟨c, hc, hcw⟩ := hall
    have hcw : isWs c = false := by simpa using hcw
    have hnone : firstSome (wsCands r6)
        (fun tp => if endAnch tp.2 = true then some (g tp) else none) = none := by
      apply firstSome_eq_none
      intro pr hpr
      obtain ⟨k, hk, hpr⟩ := mem_splitsDesc hpr
      subst hpr
      have hcdrop : c ∈ r6.drop k := by
        have hsplit := List.take_append_drop k r6
        rcases List.mem_append.mp (hsplit ▸ hc) with hmem | hmem
        · exfalso
          have := mem_take_of_le_takeWhile isWs r6 k hk c hmem
          rw [hcw] at this
          exact absurd this (by decide)
        · exact hmem
      have hne : r6.drop k ≠ [] := by
        intro h0; rw [h0] at hcdrop; simp at hcdrop
      have hnn : r6.drop k ≠ ['\n'] := by
        intro h0
        rw [h0] at hcdrop
        rcases List.mem_singleton.mp hcdrop with h1
        rw [h1] at hcw
        exact absurd hcw (by decide)
      have : endAnch (r6.drop k) = false := by
        unfold endAnch
        simp only [Bool.or_eq_false_iff, decide_eq_false_iff_not]
        exact ⟨hne, hnn⟩
      simp [this]
    rw [hnone] at h
    exact absurd h (by simp)

/-- Soundness of the pattern matcher: on success, the seven captured groups
concatenate back to the input exactly (no character is lost or added). -/
theorem pyMatch_sound {cs : List Char} {g : MatchG} (h : pyMatch cs = some g) :
    cs = g.lead ++ g.num ++ g.sp1 ++ g.unitp ++ g.sp2 ++ g.par ++ g.trailp := by
  unfold pyMatch at h
  obtain ⟨lp, hlp, h⟩ := firstSome_eq_some h
  obtain ⟨np, hnp, h⟩ := firstSome_eq_some h
  obtain ⟨s1, hs1, h⟩ := firstSome_eq_some h
  obtain ⟨up, hup, h⟩ := firstSome_eq_some h
  obtain ⟨s2, hs2, h⟩ := firstSome_eq_some h
  obtain ⟨pp, hpp, h⟩ := firstSome_eq_some h
  obtain ⟨-, hg⟩ := trailFS_some h
  have e1 := mem_wsCands_append hlp
  have e2 := mem_numCands_append hnp
  have e3 := mem_wsCands_append hs1
  have e4 := mem_unitCands_append hup
  have e5 := mem_wsCands_append hs2
  have e6 := mem_parCands_append hpp
  have hchain : cs = lp.1 ++ (np.1 ++ (s1.1 ++ (up.1 ++ (s2.1 ++ (pp.1 ++ pp.2))))) := by
    rw [e6, e5, e4, e3, e2, e1]
  subst hg
  dsimp only
  rw [hchain]
  simp [List.append_assoc]

/-- C7: for every content token the fixed-shape pattern matches, the captured
groups reproduce the token exactly (first conjunct), the output keeps every
group outside the unit core verbatim in place — only the unit region is
replaced, and `space1` only under the Ohm rule (second conjunct) — and the
total character count of the non-unit-core regions is preserved, except that
the Ohm special case inserts exactly one space (third conjunct). -/
theorem frame_effect (token : String) (B M : List String) (g : MatchG)
    (h : pyMatch token.toList = some g) :
    (token.toList = g.lead ++ g.num ++ g.sp1 ++ g.unitp ++ g.sp2 ++ g.par ++ g.trailp) ∧
    (∃ newUnit : List Char,
      (process_unit_token token B M).toList =
        g.lead ++ g.num ++
          (if hasOhm (pyStrip g.unitp) = true ∧ g.num ≠ [] ∧ g.sp1 = []
           then [' '] else g.sp1) ++ newUnit ++ g.sp2 ++ g.par ++ g.trailp) ∧
    ((g.lead ++ g.num ++
        (if hasOhm (pyStrip g.unitp) = true ∧ g.num ≠ [] ∧ g.sp1 = []
         then [' '] else g.sp1) ++ g.sp2 ++ g.par ++ g.trailp).length =
      (g.lead ++ g.num ++ g.sp1 ++ g.sp2 ++ g.par ++ g.trailp).length +
        (if hasOhm (pyStrip g.unitp) = true ∧ g.num ≠ [] ∧ g.sp1 = []
         then 1 else 0)) := by
  refine ⟨pyMatch_sound h, ?_, ?_⟩
  · unfold process_unit_token puTok
    rw [h]
    exact ⟨_, rfl⟩
  · by_cases hcond : hasOhm (pyStrip g.unitp) = true ∧ g.num ≠ [] ∧ g.sp1 = []
    · rw [if_pos hcond, if_pos hcond, hcond.2.2]
      simp [List.length_append]
      omega
    · rw [if_neg hcond, if_neg hcond]
      simp

/-- Witness for C7 at the token `"10Ohm"` with its concrete match groups. -/
theorem frame_effect_witness :
    ("10Ohm" : String).toList =
      [] ++ ['1', '0'] ++ [] ++ ['O', 'h', 'm'] ++ [] ++ [] ++ ([] : List Char) :=
  (frame_effect "10Ohm" ["Ohm"] [] ⟨[], ['1', '0'], [], ['O', 'h', 'm'], [], [], []⟩
    (by decide)).1

/-! ### Structure of whitespace trimming -/

theorem stripTrail_eq_nil_of_allWs {l : List Char} (h : ∀ c ∈ l, isWs c = true) :
    stripTrail l = [] := by
  unfold stripTrail
  rw [List.dropWhile_eq_nil_iff.mpr (fun x hx => h x (List.mem_reverse.mp hx))]
  rfl

theorem allWs_of_stripTrail_eq_nil {l : List Char} (h : stripTrail l = []) :
    ∀ c ∈ l, isWs c = true := by
  unfold stripTrail at h
  have h2 : l.reverse.dropWhile (fun c => isWs c) = [] := by
    have := congrArg List.reverse h
    simpa using this
  intro c hc
  exact List.dropWhile_eq_nil_iff.mp h2 c (List.mem_reverse.mpr hc)

theorem stripTrail_cons_nonws {c : Char} {l : List Char} (hc : isWs c = false) :
    stripTrail (c :: l) = c :: stripTrail l := by
  unfold stripTrail
  rw [show (c :: l).reverse = l.reverse ++ [c] by simp]
  rw [List.dropWhile_append]
  by_cases he : (l.reverse.dropWhile (fun c => isWs c)).isEmpty = true
  · rw [if_pos he]
    rw [List.isEmpty_iff] at he
    rw [he]
    simp [List.dropWhile_cons, hc]
  · rw [if_neg he]
    simp

theorem stripTrail_cons_of_not_allWs {c : Char} {l : List Char}
    (h : ¬∀ x ∈ l, isWs x = true) : stripTrail (c :: l) = c :: stripTrail l := by
  unfold stripTrail
  rw [show (c :: l).reverse = l.reverse ++ [c] by simp]
  rw [List.dropWhile_append]
  have hne : l.reverse.dropWhile (fun c => isWs c) ≠ [] := by
    intro h0
    exact h (fun x hx =>
      List.dropWhile_eq_nil_iff.mp h0 x (List.mem_reverse.mpr hx))
  rw [if_neg (by simpa [List.isEmpty_iff] using hne)]
  simp

theorem dropWhile_idem (p : Char → Bool) (l : List Char) :
    (l.dropWhile p).dropWhile p = l.dropWhile p := by
  induction l with
  | nil => rfl
  | cons c t ih =>
    rw [List.dropWhile_cons]
    by_cases hc : p c = true
    · rw [if_pos hc]; exact ih
    · rw [if_neg hc, List.dropWhile_cons, if_neg hc]

theorem stripTrail_idem (l : List Char) : stripTrail (stripTrail l) = stripTrail l := by
  unfold stripTrail
  rw [List.reverse_reverse, dropWhile_idem]

theorem stripLead_cons_ws {c : Char} {l : List Char} (hc : isWs c = true) :
    stripLead (c :: l) = stripLead l := by
  simp [stripLead, List.dropWhile_cons, hc]

theorem stripLead_cons_nonws {c : Char} {l : List Char} (hc : isWs c = false) :
    stripLead (c :: l) = c :: l := by
  simp [stripLead, List.dropWhile_cons, hc]

theorem stripLead_stripTrail_comm (l : List Char) :
    stripLead (stripTrail l) = stripTrail (stripLead l) := by
  induction l with
  | nil => rfl
  | cons c t ih =>
    by_cases hc : isWs c = true
    · by_cases hall : ∀ x ∈ t, isWs x = true
      · have h1 : stripTrail (c :: t) = [] := by
          apply stripTrail_eq_nil_of_allWs
          intro x hx
          rcases List.mem_cons.mp hx with hx | hx
          · rw [hx]; exact hc
          · exact hall x hx
        rw [h1, stripLead_cons_ws hc, ← ih, stripTrail_eq_nil_of_allWs hall]
      · rw [stripTrail_cons_of_not_allWs hall, stripLead_cons_ws hc,
          stripLead_cons_ws hc, ih]
    · have hc2 : isWs c = false := by simpa using hc
      rw [stripTrail_cons_nonws hc2, stripLead_cons_nonws hc2,
        stripLead_cons_nonws hc2, stripTrail_cons_nonws hc2]

theorem pyStrip_stripTrail (l : List Char) : pyStrip (stripTrail l) = pyStrip l := by
  unfold pyStrip
  rw [stripLead_stripTrail_comm, stripTrail_idem]

theorem stripTrail_eq_nil_of_pyStrip_nil {l : List Char} (h : pyStrip l = []) :
    stripTrail l = [] := by
  unfold pyStrip at h
  have hall2 : ∀ c ∈ stripLead l, isWs c = true := allWs_of_stripTrail_eq_nil h
  apply stripTrail_eq_nil_of_allWs
  intro c hc
  have hsplit : l.takeWhile (fun c => isWs c) ++ stripLead l = l :=
    List.takeWhile_append_dropWhile _ _
  rw [← hsplit] at hc
  rcases List.mem_append.mp hc with h1 | h1
  · exact List.mem_takeWhile_imp h1
  · exact hall2 c h1

theorem stripTrail_append_trailWs (l : List Char) : stripTrail l ++ trailWs l = l := by
  obtain ⟨w, hw⟩ := stripTrail_pre l
  have hdrop : trailWs l = w := by
    unfold trailWs
    nth_rewrite 2 [← hw]
    rw [List.drop_left]
  rw [hdrop, hw]

theorem trailWs_allWs (l : List Char) : ∀ c ∈ trailWs l, isWs c = true := by
  obtain ⟨w, hw⟩ := stripTrail_pre l
  have hdrop : trailWs l = w := by
    unfold trailWs
    nth_rewrite 2 [← hw]
    rw [List.drop_left]
  rw [hdrop]
  intro c hc
  have h1 : (stripTrail l).reverse = l.reverse.dropWhile (fun c => isWs c) := by
    unfold stripTrail
    rw [List.reverse_reverse]
  have h2 : w.reverse ++ (stripTrail l).reverse = l.reverse := by
    rw [← List.reverse_append, hw]
  have h3 : l.reverse.takeWhile (fun c => isWs c) ++
      l.reverse.dropWhile (fun c => isWs c) = l.reverse :=
    List.takeWhile_append_dropWhile _ _
  have h4 : w.reverse = l.reverse.takeWhile (fun c => isWs c) := by
    have h5 : w.reverse ++ (stripTrail l).reverse =
        l.reverse.takeWhile (fun c => isWs c) ++ (stripTrail l).reverse := by
      rw [h2, h1]
      exact h3.symm
    exact List.append_cancel_right h5
  have hc2 : c ∈ w.reverse := List.mem_reverse.mpr hc
  rw [h4] at hc2
  exact List.mem_takeWhile_imp hc2

theorem dropWhile_head_false (p : Char → Bool) :
    ∀ (z : List Char) (a : Char) (t : List Char),
      z.dropWhile p = a :: t → p a = false := by
  intro z
  induction z with
  | nil => intro a t h; simp at h
  | cons c u ih =>
    intro a t h
    rw [List.dropWhile_cons] at h
    by_cases hc : p c = true
    · rw [if_pos hc] at h; exact ih a t h
    · rw [if_neg hc] at h
      injection h with h1 _
      rw [← h1]
      simpa using hc

theorem stripTrail_getLast_not_ws {l : List Char} (h : stripTrail l ≠ []) :
    ∃ a, (stripTrail l).getLast? = some a ∧ isWs a = false := by
  have h1 : (stripTrail l).getLast? = (l.reverse.dropWhile (fun c => isWs c)).head? := by
    unfold stripTrail
    rw [List.getLast?_reverse]
  have hne : l.reverse.dropWhile (fun c => isWs c) ≠ [] := by
    intro h0
    apply h
    unfold stripTrail
    rw [h0]
    rfl
  obtain ⟨a, t, ht⟩ := List.exists_cons_of_ne_nil hne
  exact ⟨a, by rw [h1, ht]; rfl, dropWhile_head_false _ _ a t ht⟩

/-! ### The pattern's behaviour on marker-headed, paren-free tokens -/

theorem firstSome_singleton {α β} (a : α) (f : α → Option β) :
    firstSome [a] f = f a := by
  rw [firstSome_cons]
  cases h : f a with
  | some b => rfl
  | none => rfl

theorem firstSome_append {α β} (l₁ l₂ : List α) (f : α → Option β) :
    firstSome (l₁ ++ l₂) f =
      match firstSome l₁ f with
      | some b => some b
      | none => firstSome l₂ f := by
  induction l₁ with
  | nil => rfl
  | cons a t ih =>
    show firstSome (a :: (t ++ l₂)) f = _
    rw [firstSome_cons, firstSome_cons]
    cases h : f a with
    | some b => rfl
    | none => exact ih

theorem splitsAsc_succ (cs : List Char) (n : Nat) :
    splitsAsc cs (n + 1) =
      splitsAsc cs n ++ [(cs.take (n + 1), cs.drop (n + 1))] := by
  simp [splitsAsc, List.range_succ]

theorem wsCands_cons_nonws {c : Char} {l : List Char} (hc : isWs c = false) :
    wsCands (c :: l) = [([], c :: l)] := by
  unfold wsCands
  rw [List.takeWhile_cons, if_neg (by simp [hc])]
  simp [splitsDesc_zero]

theorem numCands_trivial {c : Char} {l : List Char} (hs : isSignC c = false)
    (hd : isDigitC c = false) (hdot : c ≠ '.') :
    numCands (c :: l) = [([], c :: l)] := by
  unfold numCands signCands digitCands fracCands
  dsimp only
  rw [if_neg (by simp [hs])]
  simp [hd, hdot, List.takeWhile_cons, splitsDesc_zero]

theorem unitCands_no_nl {cs : List Char} (hnn : '\n' ∉ cs) :
    unitCands cs = splitsAsc cs cs.length := by
  unfold unitCands
  congr 1
  rw [List.takeWhile_eq_self_iff.mpr]
  intro a ha
  rw [decide_eq_true_iff]
  intro h0
  exact hnn (h0 ▸ ha)

/-- A block whose members all satisfy the predicate is covered by the
`takeWhile` run of any extension. -/
theorem len_le_takeWhile_append (p : Char → Bool) :
    ∀ (a b : List Char), (∀ x ∈ a, p x = true) →
      a.length ≤ ((a ++ b).takeWhile p).length := by
  intro a
  induction a with
  | nil => intro b _; simp
  | cons c t ih =>
    intro b hall
    have hc : p c = true := hall c (List.mem_cons_self _ _)
    rw [List.cons_append, List.takeWhile_cons, if_pos hc]
    simp only [List.length_cons]
    have := ih b (fun x hx => hall x (List.mem_cons_of_mem _ hx))
    omega

/-- A predicate failure inside a block cuts the `takeWhile` run of any
extension short of the block. -/
theorem takeWhile_length_lt (p : Char → Bool) :
    ∀ (a b : List Char) (x : Char), x ∈ a → p x = false →
      ((a ++ b).takeWhile p).length < a.length := by
  intro a
  induction a with
  | nil => intro b x hx _; simp at hx
  | cons c t ih =>
    intro b x hx hpx
    rw [List.cons_append, List.takeWhile_cons]
    by_cases hc : p c = true
    · rw [if_pos hc]
      rcases List.mem_cons.mp hx with h | h
      · subst h; rw [hpx] at hc; exact absurd hc (by simp)
      · have := ih b x h hpx
        simp only [List.length_cons]
        omega
    · rw [if_neg hc]
      simp

theorem scanAsc_success {β : Type} {f : List Char × List Char → Option β}
    {cs : List Char} {b : β} :
    ∀ (m L : Nat), L ≤ m →
      (∀ k, k < L → f (cs.take k, cs.drop k) = none) →
      f (cs.take L, cs.drop L) = some b →
      firstSome (splitsAsc cs m) f = some b := by
  intro m
  induction m with
  | zero =>
    intro L hL hfail hsucc
    have hL0 : L = 0 := by omega
    subst hL0
    have h0 : splitsAsc cs 0 = [(cs.take 0, cs.drop 0)] := by
      simp [splitsAsc, List.range_succ]
    rw [h0, firstSome_singleton]
    exact hsucc
  | succ m ih =>
    intro L hL hfail hsucc
    rw [splitsAsc_succ, firstSome_append]
    by_cases hLm : L ≤ m
    · rw [ih L hLm hfail hsucc]
    · have hLe : L = m + 1 := by omega
      have hnone : firstSome (splitsAsc cs m) f = none := by
        apply firstSome_eq_none
        intro pr hpr
        obtain ⟨k, hk, hpr⟩ := mem_splitsAsc hpr
        rw [hpr]
        exact hfail k (by omega)
      rw [hnone]
      subst hLe
      rw [firstSome_singleton]
      exact hsucc

theorem wsCands_rest_mem {r : List Char} {c : Char} (hc : c ∈ r)
    (hcw : isWs c = false) {pr : List Char × List Char} (hpr : pr ∈ wsCands r) :
    c ∈ pr.2 := by
  obtain ⟨k, hk, hpr⟩ := mem_splitsDesc hpr
  subst hpr
  dsimp only
  have hsplit := List.take_append_drop k r
  rw [← hsplit] at hc
  rcases List.mem_append.mp hc with h1 | h1
  · exfalso
    have := mem_take_of_le_takeWhile isWs r k hk c h1
    rw [hcw] at this
    exact absurd this (by decide)
  · exact h1

theorem wsCands_rest_subset {r : List Char} {pr : List Char × List Char}
    (hpr : pr ∈ wsCands r) : ∀ x ∈ pr.2, x ∈ r := by
  obtain ⟨k, _, hpr⟩ := mem_splitsDesc hpr
  subst hpr
  intro x hx
  exact List.mem_of_mem_drop hx

theorem parCands_ne {c : Char} (t : List Char) (hc : c ≠ '(') :
    parCands (c :: t) = [([], c :: t)] := by
  unfold parCands
  dsimp only
  rw [if_neg hc]

theorem contAfterUnit_none {β : Type}
    (G : (List Char × List Char) → (List Char × List Char) →
      (List Char × List Char) → β)
    {r : List Char} (c : Char) (hc : c ∈ r) (hcw : isWs c = false)
    (hnp : '(' ∉ r) :
    (firstSome (wsCands r) fun s2 =>
      firstSome (parCands s2.2) fun pp =>
        firstSome (wsCands pp.2) fun tp =>
          if endAnch tp.2 = true then some (G s2 pp tp) else none) = none := by
  apply firstSome_eq_none
  intro s2 hs2
  have hcs2 : c ∈ s2.2 := wsCands_rest_mem hc hcw hs2
  have hnp2 : '(' ∉ s2.2 := fun h => hnp (wsCands_rest_subset hs2 _ h)
  cases hs2e : s2.2 with
  | nil => rw [hs2e] at hcs2; simp at hcs2
  | cons c0 t0 =>
    have hc0 : c0 ≠ '(' := by
      intro h0
      apply hnp2
      rw [hs2e, h0]
      exact List.mem_cons_self _ _
    rw [parCands_ne t0 hc0, firstSome_singleton]
    dsimp only
    apply firstSome_eq_none
    intro tp htp
    have hctp : c ∈ tp.2 := by
      refine wsCands_rest_mem ?_ hcw htp
      rw [← hs2e]
      exact hcs2
    have h1 : tp.2 ≠ [] := by
      intro h0; rw [h0] at hctp; simp at hctp
    have h2 : tp.2 ≠ ['\n'] := by
      intro h0
      rw [h0] at hctp
      have h3 : c = '\n' := by simpa using hctp
      rw [h3] at hcw
      exact absurd hcw (by decide)
    have hanch : endAnch tp.2 = false := by
      unfold endAnch
      rw [decide_eq_false h1, decide_eq_false h2]
      rfl
    rw [hanch]
    rfl

theorem firstSome_splitsDesc_head {β : Type} {f : List Char × List Char → Option β}
    {cs : List Char} {n : Nat} {b : β}
    (hb : f (cs.take n, cs.drop n) = some b) :
    firstSome (splitsDesc cs n) f = some b := by
  cases n with
  | zero =>
    rw [splitsDesc_zero, firstSome_singleton]
    simpa using hb
  | succ n =>
    rw [splitsDesc_succ, firstSome_cons, hb]

theorem trailCont_allws {β : Type}
    (G : (List Char × List Char) → (List Char × List Char) →
      (List Char × List Char) → β)
    (w : List Char) (hall : ∀ c ∈ w, isWs c = true) :
    (firstSome (wsCands w) fun s2 =>
      firstSome (parCands s2.2) fun pp =>
        firstSome (wsCands pp.2) fun tp =>
          if endAnch tp.2 = true then some (G s2 pp tp) else none) =
      some (G (w, []) ([], []) ([], [])) := by
  unfold wsCands
  rw [List.takeWhile_eq_self_iff.mpr hall]
  apply firstSome_splitsDesc_head
  rw [List.take_length, List.drop_length]
  rfl

/-- Whenever a non-whitespace character of the input remains after the lazy
unit group (the candidate cut falls short of the trimmed core), the
whitespace/parenthetical/anchor continuation of the pattern fails. -/
theorem unitContFail {β : Type}
    (G : (List Char × List Char) → (List Char × List Char) →
      (List Char × List Char) → β)
    (cs : List Char) (k : Nat) (hk : k < (stripTrail cs).length)
    (hnp : '(' ∉ cs) :
    (firstSome (wsCands (cs.drop k)) fun s2 =>
      firstSome (parCands s2.2) fun pp =>
        firstSome (wsCands pp.2) fun tp =>
          if endAnch tp.2 = true then some (G s2 pp tp) else none) = none := by
  have hne : stripTrail cs ≠ [] := by
    intro h0
    rw [h0] at hk
    simp at hk
  obtain ⟨a, ha, haw⟩ := stripTrail_getLast_not_ws hne
  have hmem : a ∈ cs.drop k := by
    have hsplitcs : stripTrail cs ++ trailWs cs = cs :=
      stripTrail_append_trailWs _
    rw [← hsplitcs, List.drop_append_of_le_length (by omega)]
    apply List.mem_append_left
    have hdne : (stripTrail cs).drop k ≠ [] := by
      intro h0
      have := congrArg List.length h0
      simp only [List.length_drop, List.length_nil] at this
      omega
    have hgl : ((stripTrail cs).drop k).getLast? = some a := by
      rw [← ha]
      conv_rhs => rw [← List.take_append_drop k (stripTrail cs)]
      rw [List.getLast?_append]
      cases hgl2 : ((stripTrail cs).drop k).getLast? with
      | none => exact absurd (List.getLast?_eq_none_iff.mp hgl2) hdne
      | some x => rfl
    exact List.mem_of_getLast?_eq_some hgl
  exact contAfterUnit_none G a hmem haw (fun h => hnp (List.mem_of_mem_drop h))

theorem pyMatch_dollar (rest : List Char)
    (hnp : '(' ∉ '$' :: rest) (hnn : '\n' ∉ stripTrail ('$' :: rest)) :
    pyMatch ('$' :: rest) =
      some ⟨[], [], [], stripTrail ('$' :: rest), trailWs ('$' :: rest), [], []⟩ := by
  unfold pyMatch
  rw [wsCands_cons_nonws (by decide)]
  rw [firstSome_singleton]
  dsimp only
  rw [numCands_trivial (by decide) (by decide) (by decide)]
  rw [firstSome_singleton]
  dsimp only
  rw [wsCands_cons_nonws (by decide)]
  rw [firstSome_singleton]
  dsimp only
  unfold unitCands
  have hLle : (stripTrail ('$' :: rest)).length ≤
      (('$' :: rest).takeWhile (fun c => c ≠ '\n')).length := by
    obtain ⟨t, ht⟩ := stripTrail_pre ('$' :: rest)
    conv_rhs => rw [← ht]
    apply len_le_takeWhile_append
    intro x hx
    simp only [decide_eq_true_iff]
    intro h0
    exact hnn (h0 ▸ hx)
  apply scanAsc_success (('$' :: rest).takeWhile (fun c => c ≠ '\n')).length
    (stripTrail ('$' :: rest)).length hLle
  · intro k hk
    dsimp only
    exact unitContFail
      (fun s2 pp tp =>
        (⟨[], [], [], ('$' :: rest).take k, s2.1, pp.1, tp.1⟩ : MatchG))
      ('$' :: rest) k hk hnp
  · dsimp only
    rw [show ('$' :: rest).take (stripTrail ('$' :: rest)).length
          = stripTrail ('$' :: rest)
        from (List.prefix_iff_eq_take.mp (stripTrail_pre _)).symm]
    rw [show ('$' :: rest).drop (stripTrail ('$' :: rest)).length
          = trailWs ('$' :: rest) from rfl]
    exact trailCont_allws
      (fun s2 pp tp =>
        (⟨[], [], [], stripTrail ('$' :: rest), s2.1, pp.1, tp.1⟩ : MatchG))
      (trailWs ('$' :: rest)) (trailWs_allWs _)

/-- When a newline lies strictly inside the trimmed core of a paren-free
`$`-token, the lazy unit group can never reach the last non-whitespace
character, so the fixed-shape pattern fails altogether. -/
theorem pyMatch_dollar_none (rest : List Char)
    (hnp : '(' ∉ '$' :: rest) (hin : '\n' ∈ stripTrail ('$' :: rest)) :
    pyMatch ('$' :: rest) = none := by
  unfold pyMatch
  rw [wsCands_cons_nonws (by decide)]
  rw [firstSome_singleton]
  dsimp only
  rw [numCands_trivial (by decide) (by decide) (by decide)]
  rw [firstSome_singleton]
  dsimp only
  rw [wsCands_cons_nonws (by decide)]
  rw [firstSome_singleton]
  dsimp only
  have hmlt : (('$' :: rest).takeWhile (fun c => c ≠ '\n')).length <
      (stripTrail ('$' :: rest)).length := by
    obtain ⟨t, ht⟩ := stripTrail_pre ('$' :: rest)
    conv_lhs => rw [← ht]
    exact takeWhile_length_lt _ _ t '\n' hin (by decide)
  apply firstSome_eq_none
  intro pr hpr
  unfold unitCands at hpr
  obtain ⟨k, hk, hpr2⟩ := mem_splitsAsc hpr
  subst hpr2
  dsimp only
  exact unitContFail
    (fun s2 pp tp =>
      (⟨[], [], [], ('$' :: rest).take k, s2.1, pp.1, tp.1⟩ : MatchG))
    ('$' :: rest) k (by omega) hnp

/-! ### Idempotence on already-canonical tokens -/

/-- A paren-free text containing no connector occurrence is never split. -/
theorem splitAux_no_delim :
    ∀ (fuel : Nat) (cs current : List Char), cs.length ≤ fuel →
      '(' ∉ cs → ')' ∉ cs →
      (∀ d ∈ connectors, ¬d <:+: cs) →
      splitAux (sortLenDesc connectors) fuel cs current 0 =
        if current ++ cs = [] then [] else [current ++ cs] := by
  intro fuel
  induction fuel with
  | zero =>
    intro cs current hf _ _ _
    cases cs with
    | nil => rw [splitAux]; simp
    | cons c r => simp at hf
  | succ fuel ih =>
    intro cs current hf hp1 hp2 hnd
    cases cs with
    | nil => rw [splitAux]; simp
    | cons c r =>
      have hc1 : c ≠ '(' := fun h => hp1 (h ▸ List.mem_cons_self _ _)
      have hc2 : c ≠ ')' := fun h => hp2 (h ▸ List.mem_cons_self _ _)
      rw [splitAux]
      rw [if_neg hc1, if_neg hc2, if_pos rfl]
      cases hm : delimMatch (sortLenDesc connectors) (c :: r) with
      | some d =>
        exfalso
        have hdm : d ∈ connectors := by
          have := delimMatch_some_mem hm
          rw [show sortLenDesc connectors = connectors from rfl] at this
          exact this
        exact hnd d hdm (List.IsPrefix.isInfix (delimMatch_some_pre hm))
      | none =>
        rw [ih r (current ++ [c])
          (by simp only [List.length_cons] at hf; omega)
          (fun h => hp1 (List.mem_cons_of_mem _ h))
          (fun h => hp2 (List.mem_cons_of_mem _ h))
          (fun d hd hinf => by
            obtain ⟨s, t, hst⟩ := hinf
            exact hnd d hd ⟨c :: s, t, by rw [← hst]; rfl⟩)]
        simp

/-- The `process_unit_token` computation on a paren-free, non-Ohm canonical
token, at the code-point level: a newline inside the trimmed core makes the
pattern fail (no-op); otherwise the match reproduces the token. -/
theorem puTok_canonical {rest : List Char} {B M : List (List Char)}
    (hB : pyStrip rest ∈ B)
    (hp1 : '(' ∉ '$' :: rest)
    (hohm : ¬("ohm".toList <:+: ('$' :: rest).map lowerC)) :
    puTok ('$' :: rest) B M = '$' :: rest := by
  have hU : stripTrail ('$' :: rest) = '$' :: stripTrail rest :=
    stripTrail_cons_nonws (by decide)
  have hUW : stripTrail ('$' :: rest) ++ trailWs ('$' :: rest) = '$' :: rest :=
    stripTrail_append_trailWs _
  have hcore : pyStrip (stripTrail ('$' :: rest)) = stripTrail ('$' :: rest) := by
    unfold pyStrip
    rw [hU, stripLead_cons_nonws (by decide), ← hU, stripTrail_idem]
  have hlws : (stripTrail ('$' :: rest)).takeWhile isWs = [] := by
    rw [hU, List.takeWhile_cons, if_neg (by decide)]
  have hrws : trailWs (stripTrail ('$' :: rest)) = [] := by
    unfold trailWs
    rw [stripTrail_idem, List.drop_length]
  have hproc : puTokNP (stripTrail ('$' :: rest)) B M = stripTrail ('$' :: rest) := by
    unfold puTokNP
    rw [hU]
    rw [if_pos (show ('$' :: stripTrail rest).head? = some '$' from rfl)]
    show (if pyStrip (('$' :: stripTrail rest).drop 1) = [] then ['$']
      else if pyStrip (('$' :: stripTrail rest).drop 1) ∈ B
        then '$' :: ('$' :: stripTrail rest).drop 1
        else dollarLoop (('$' :: stripTrail rest).drop 1)
          (pyStrip (('$' :: stripTrail rest).drop 1)) B (sortLenDesc M))
      = '$' :: stripTrail rest
    rw [show ('$' :: stripTrail rest).drop 1 = stripTrail rest from rfl]
    rw [pyStrip_stripTrail]
    by_cases hstrip : pyStrip rest = []
    · rw [if_pos hstrip, stripTrail_eq_nil_of_pyStrip_nil hstrip]
    · rw [if_neg hstrip, if_pos hB]
  have hohmF : hasOhm (stripTrail ('$' :: rest)) = false := by
    unfold hasOhm
    rw [decide_eq_false]
    intro hinf
    exact hohm (List.IsInfix.trans hinf
      (List.IsPrefix.isInfix (List.IsPrefix.map lowerC (stripTrail_pre _))))
  by_cases hin : '\n' ∈ stripTrail ('$' :: rest)
  · unfold puTok
    rw [pyMatch_dollar_none rest hp1 hin]
  · unfold puTok
    rw [pyMatch_dollar rest hp1 hin]
    dsimp only
    rw [hcore, hlws, hrws, hproc, hohmF]
    rw [if_neg (by simp), if_neg (by simp)]
    simp only [List.nil_append, List.append_nil]
    exact hUW

/-- C1 (amended): resolving an already-canonical token — one starting with the
`$` marker whose trimmed remainder is a known base unit — is a no-op, for
every dictionary and every such token that contains no parentheses and no
occurrence of `ohm` (case-insensitive); when the token also contains no
connector occurrence, `resolve_compound_unit` on that single token is
likewise a no-op.  (Ohm-family canonical tokens are excluded: the Ohm rule
rewrites `"$Ohm"` to `"$ Ohm"`, see the counterexample.) -/
theorem canonical_idempotent (token : String) (B M : List String)
    (hd : token.toList.head? = some '$')
    (hB : pyStrip (token.toList.drop 1) ∈ B.map String.toList)
    (hp1 : '(' ∉ token.toList) (hp2 : ')' ∉ token.toList)
    (hohm : ¬("ohm".toList <:+: token.toList.map lowerC)) :
    process_unit_token token B M = token ∧
    ((∀ d ∈ connectors, ¬d <:+: token.toList) →
      resolve_compound_unit token B M = token) := by
  obtain ⟨rest, htl⟩ : ∃ rest, token.toList = '$' :: rest := by
    cases h : token.toList with
    | nil => rw [h] at hd; exact absurd hd (by simp)
    | cons c r =>
      rw [h] at hd
      injection hd with hd2
      exact ⟨r, by rw [hd2]⟩
  have hlist : puTok token.toList (B.map String.toList) (M.map String.toList)
      = token.toList := by
    rw [htl]
    exact puTok_canonical (by rw [htl] at hB; exact hB) (htl ▸ hp1)
      (htl ▸ hohm)
  constructor
  · show String.mk (puTok token.toList _ _) = token
    rw [hlist]
    exact strMk_toList token
  · intro hnodelim
    show String.mk (resolveParts _ _ (splitAux (sortLenDesc connectors)
      token.toList.length token.toList [] 0)) = token
    rw [splitAux_no_delim token.toList.length token.toList [] (Nat.le_refl _)
      hp1 hp2 hnodelim]
    rw [if_neg (by rw [htl]; simp)]
    simp only [List.nil_append]
    have hnc : token.toList ∉ connectors := by
      rw [htl]
      intro h
      simp only [connectors, List.mem_cons, List.not_mem_nil, or_false] at h
      rcases h with h | h | h <;>
        exact absurd (congrArg List.head? h) (by simp)
    unfold resolveParts
    rw [if_neg hnc, if_neg (by rw [htl]; simp)]
    rw [hlist]
    show String.mk (token.toList ++ resolveParts _ _ []) = token
    rw [show resolveParts (B.map String.toList) (M.map String.toList) [] = []
      from rfl]
    rw [List.append_nil]
    exact strMk_toList token

/-- C1 counterexample: `"$Ohm"` is already canonical (marker plus the base
unit `Ohm`) yet segment normalization does NOT return it unchanged: the Ohm
rule inserts a space, giving `"$ Ohm"`; `resolve_compound_unit` does the same. -/
theorem canonical_idempotent_cex :
    ("$Ohm" : String).toList.head? = some '$' ∧
    pyStrip (("$Ohm" : String).toList.drop 1) ∈ (["Ohm"].map String.toList) ∧
    process_unit_token "$Ohm" ["Ohm"] [] = "$ Ohm" ∧
    ("$ Ohm" : String) ≠ "$Ohm" ∧
    resolve_compound_unit "$Ohm" ["Ohm"] [] = "$ Ohm" := by
  decide

/-- Witness for C1 at the canonical token `"$m"` with base units `{m}`. -/
theorem canonical_idempotent_witness :
    process_unit_token "$m" ["m"] ["k"] = "$m" ∧
    resolve_compound_unit "$m" ["m"] ["k"] = "$m" :=
  ⟨(canonical_idempotent "$m" ["m"] ["k"] (by decide) (by decide) (by decide)
      (by decide) (by decide)).1,
   (canonical_idempotent "$m" ["m"] ["k"] (by decide) (by decide) (by decide)
      (by decide) (by decide)).2 (by decide)⟩

end AAC
